import Mathlib

/-! Package `migrate` (go-sqlite3-migrate): schema migrations tracked by
`PRAGMA user_version`.

A shallow embedding of `migrate.go` and `version.go`.

* The database handle `*sql.DB` is an explicit state `DB σ`: the integer held by
  `PRAGMA user_version` together with everything else (`rest : σ`: tables, closure
  state of the step functions, connection state).
* `database/sql` and the SQLite driver are outside the package.  Their behaviour is a
  parameter `Driver σ`: whether the version query and the version statement fail.
* SQLite keeps `user_version` in a signed 32-bit slot: a version statement that succeeds
  stores `storedUserVersion v`, which is `v` inside the 32-bit range and 0 outside it.
* Go `error` values are the tree `Error`; `Error.msg` renders the message that the
  `fmt.Errorf` calls of the package build.
* Go `int` is `Int`: the package does no arithmetic on versions, only `max` and `==`.
* Every run records a trace of the step functions it invoked and of the calls of
  `setUserVersion` it made, each with its result.
-/

namespace SqliteMigrate

/-- Go `error` values met by the package, as trees following the `fmt.Errorf` calls. -/
inductive Error where
  /-- An error value produced outside the package (driver, step function). -/
  | driver (msg : String)
  /-- Result of `fmt.Errorf("get user version: %s", err)`. -/
  | getUserVersion (cause : Error)
  /-- Result of `fmt.Errorf("set user version %d: %s", v, err)`. -/
  | setUserVersion (v : Int) (cause : Error)
  /-- Result of `fmt.Errorf("migrate: %s", err)` and of `fmt.Errorf("migrate: %w", err)`. -/
  | migrate (cause : Error)
  /-- Result of `fmt.Errorf("migrate from %d to %d: %s", a, b, err)`. -/
  | migrateStep (a b : Int) (cause : Error)
  /-- Result of `fmt.Errorf("migrate: no migration path from %d to %d", a, b)`:
  `a` is the first argument after the format string and `b` the second. -/
  | noMigrationPath (a b : Int)
  deriving DecidableEq

/-- The message of an error, as `fmt.Errorf` formats it. -/
def Error.msg : Error → String
  | .driver msg => msg
  | .getUserVersion cause => "get user version: " ++ cause.msg
  | .setUserVersion v cause => "set user version " ++ toString v ++ ": " ++ cause.msg
  | .migrate cause => "migrate: " ++ cause.msg
  | .migrateStep a b cause =>
    "migrate from " ++ toString a ++ " to " ++ toString b ++ ": " ++ cause.msg
  | .noMigrationPath a b =>
    "migrate: no migration path from " ++ toString a ++ " to " ++ toString b

/-- The state behind a `*sql.DB`: the value of `PRAGMA user_version` and the rest. -/
structure DB (σ : Type) where
  user_version : Int
  rest : σ
  deriving DecidableEq

/-- Modelled from the spec: the storage engine behind `*sql.DB` is not part of the
repository.  A fresh database is one whose version marker is 0 (spec section 8: "a fresh
database (`version == 0`)", and what `TestUserVersion` expects of `testDB`). -/
def freshDB {σ : Type} (rest : σ) : DB σ :=
  { user_version := 0
    rest := rest }

/-- What the driver answers when `getUserVersion` runs `PRAGMA user_version`: the
four ways the read can fail in `version.go`, or one row holding the version. -/
inductive QueryResult where
  /-- The call `d.Query` returns an error. -/
  | queryErr (err : Error)
  /-- The call `r.Next()` is false; `err` is `r.Err()`. -/
  | noRow (err : Error)
  /-- The call `r.Scan(&v)` returns an error. -/
  | scanErr (err : Error)
  /-- The value `r.Err()` is non-nil after `r.Close()`. -/
  | rowsErr (err : Error)
  /-- One row, scanned without error: the stored `user_version`. -/
  | row
  deriving DecidableEq

/-- Behaviour of `database/sql` and the SQLite driver on the two statements the package
issues.  `exec d v = some (err, d1)` means that `PRAGMA user_version=v` fails with `err`
and leaves the database as `d1`; `none` means that it succeeds. -/
structure Driver (σ : Type) where
  query : DB σ → QueryResult
  exec : DB σ → Int → Option (Error × DB σ)

/-- The function `getUserVersion` of `version.go`. -/
def getUserVersion {σ : Type} (env : Driver σ) (d : DB σ) : Except Error Int :=
  match env.query d with
  | .queryErr err => .error (.getUserVersion err)
  | .noRow err => .error (.getUserVersion err)
  | .scanErr err => .error (.getUserVersion err)
  | .rowsErr err => .error (.getUserVersion err)
  | .row => .ok d.user_version

/-- What SQLite stores when `PRAGMA user_version=v` succeeds.  The marker is a signed
32-bit slot of the database header, while `setUserVersion` formats a Go `int` (64 bits)
into the statement: a value outside the 32-bit range is stored as 0, and the statement
still reports no error. -/
def storedUserVersion (v : Int) : Int :=
  if -2147483648 ≤ v ∧ v ≤ 2147483647 then v else 0

/-- The function `setUserVersion` of `version.go`: the error (if any) and the database
afterwards.  The function passes `v` unchecked to the statement, so on success the
database holds `storedUserVersion v`. -/
def setUserVersion {σ : Type} (env : Driver σ) (d : DB σ) (v : Int) : Option Error × DB σ :=
  match env.exec d v with
  | some (err, d1) => (some (.setUserVersion v err), d1)
  | none => (none, { d with user_version := storedUserVersion v })

/-- A `Migration` of `migrate.go`.  `Func` may read and change the whole database. -/
structure Migration (σ : Type) where
  From : Int
  To : Int
  Func : DB σ → Option Error × DB σ

/-- The `MigrationSet` of `migrate.go`. -/
structure MigrationSet (σ : Type) where
  migrations : List (Migration σ)
  latest : Int

/-- The function `NewMigrationSet` of `migrate.go`: `latest` starts at 0 and takes `max` with every `To`. -/
def NewMigrationSet {σ : Type} (m : List (Migration σ)) : MigrationSet σ :=
  { migrations := m
    latest := m.foldl (fun latest m => max latest m.To) 0 }

/-- Calls a run makes, in order, each with whether it returned a nil error. -/
inductive Event where
  /-- The call `s.migrations[i].Func(ctx, d)`. -/
  | func (i : Nat) (ok : Bool)
  /-- The call `setUserVersion(d, v)`. -/
  | setUserVersion (v : Int) (ok : Bool)
  deriving DecidableEq

/-- How the `for ... range s.migrations` loop of `Migrate` ends. -/
inductive Flow where
  /-- The loop ran off the end of the slice with working version `v`. -/
  | next (v : Int)
  /-- A `return` inside the loop body. -/
  | ret (err : Error)
  deriving DecidableEq

/-- Result of the loop: how it ended, the database, and the calls made. -/
structure LoopResult (σ : Type) where
  flow : Flow
  db : DB σ
  trace : List Event

/-- The loop `for _, m := range s.migrations` of `Migrate`, from the element of index `i`
on, with working version `v` and database `d`. -/
def migrateLoop {σ : Type} (env : Driver σ) :
    Nat → List (Migration σ) → Int → DB σ → LoopResult σ
  | _, [], v, d => ⟨.next v, d, []⟩
  | i, m :: ms, v, d =>
    if v ≠ m.From then
      migrateLoop env (i + 1) ms v d
    else
      match m.Func d with
      | (some err, d1) => ⟨.ret (.migrateStep m.From m.To err), d1, [.func i false]⟩
      | (none, d1) =>
        match setUserVersion env d1 m.To with
        | (some err, d2) =>
          ⟨.ret (.migrate err), d2, [.func i true, .setUserVersion m.To false]⟩
        | (none, d2) =>
          let r := migrateLoop env (i + 1) ms m.To d2
          ⟨r.flow, r.db, .func i true :: .setUserVersion m.To true :: r.trace⟩

/-- What a call of `Migrate` returns and leaves behind. -/
structure Outcome (σ : Type) where
  /-- The returned error; `none` is Go's `nil`. -/
  err : Option Error
  /-- The database when `Migrate` returns. -/
  db : DB σ
  /-- The calls made during the run. -/
  trace : List Event

/-- The method `MigrationSet.Migrate` of `migrate.go`. -/
def Migrate {σ : Type} (env : Driver σ) (s : MigrationSet σ) (d : DB σ) : Outcome σ :=
  match getUserVersion env d with
  | .error err => ⟨some (.migrate err), d, []⟩
  | .ok v =>
    if v = s.latest then
      ⟨none, d, []⟩
    else
      let r := migrateLoop env 0 s.migrations v d
      match r.flow with
      | .ret err => ⟨some err, r.db, r.trace⟩
      | .next v1 =>
        if v1 ≠ s.latest then
          ⟨some (.noMigrationPath s.latest v1), r.db, r.trace⟩
        else
          ⟨none, r.db, r.trace⟩

/-- Indices of the step functions invoked in a trace, in order of invocation. -/
def calls : List Event → List Nat
  | [] => []
  | .func i _ :: es => i :: calls es
  | .setUserVersion _ _ :: es => calls es

/-- Values passed to `setUserVersion` in a trace, in order. -/
def writes : List Event → List Int
  | [] => []
  | .func _ _ :: es => writes es
  | .setUserVersion v _ :: es => v :: writes es

/-- Whether the call recorded by an event returned a nil error. -/
def Event.ok : Event → Bool
  | .func _ ok => ok
  | .setUserVersion _ ok => ok

/-! ## Predicates used to state the claims -/

/-- A single forward pass: `ForwardScan all lo v js` says that the indices `js` are what a
scan of `all` selects when it stands at position `lo` with working version `v`: the next
index `j` is the first one at or after `lo` whose step starts at `v`, after which the scan
stands just past `j` with working version the `To` of that step. -/
def ForwardScan {σ : Type} (all : List (Migration σ)) : Nat → Int → List Nat → Prop
  | _, _, [] => True
  | lo, v, j :: js =>
    ∃ m, all[j]? = some m ∧ lo ≤ j ∧ m.From = v
      ∧ (∀ k m1, lo ≤ k → k < j → all[k]? = some m1 → m1.From ≠ v)
      ∧ ForwardScan all (j + 1) m.To js

/-- End of the chain of steps `es` followed from version `v`: every step must start at
the version the previous one led to (the first one at `v`); `none` when one does not. -/
def chainEnd {σ : Type} : Int → List (Migration σ) → Option Int
  | v, [] => some v
  | v, e :: es => if e.From = v then chainEnd e.To es else none

/-- A scan that ran to the end: `ScanExhausted all lo v js` says that after the scan of
`all`, started at position `lo` with working version `v`, has selected the indices `js`
(each selection moving it just past the selected index, with working version the `To` of
that step), no step at or after its final position starts at its final working version. -/
def ScanExhausted {σ : Type} (all : List (Migration σ)) : Nat → Int → List Nat → Prop
  | lo, v, [] => ∀ k m, lo ≤ k → all[k]? = some m → m.From ≠ v
  | _, _, j :: js => ∀ m, all[j]? = some m → ScanExhausted all (j + 1) m.To js

/-! ## Concrete inputs

The examples run on databases whose `rest` is a log of the step functions that ran, in the
manner of `spyFunc` in `migrate_test.go`. -/

/-- A driver on which the version query and the version statement always succeed. -/
def okDriver : Driver (List Nat) :=
  { query := fun _ => .row
    exec := fun _ _ => none }

/-- A step function that logs `k` and returns nil. -/
def spy (k : Nat) : DB (List Nat) → Option Error × DB (List Nat) :=
  fun d => (none, { d with rest := d.rest ++ [k] })

/-- A step function that logs `k` and returns an error. -/
def spyFail (k : Nat) : DB (List Nat) → Option Error × DB (List Nat) :=
  fun d => (some (.driver "step failed"), { d with rest := d.rest ++ [k] })

/-- A database with `user_version = v` on which no step function has run. -/
def dbAt (v : Int) : DB (List Nat) :=
  { user_version := v
    rest := [] }

/-- The steps `[{0→1, A}, {1→2, B}]`, with `A` logging 10 and `B` logging 11. -/
def stepsAB : List (Migration (List Nat)) :=
  [{ From := 0, To := 1, Func := spy 10 }, { From := 1, To := 2, Func := spy 11 }]

/-- The single step `[{0→1, s0}]` of `TestSimpleMigration`. -/
def stepsSimple : List (Migration (List Nat)) :=
  [{ From := 0, To := 1, Func := spy 10 }]

/-- The steps `[{0→1, A(fails)}, {1→2, B}]`, with `A` logging 10 and `B` logging 11. -/
def stepsFailAB : List (Migration (List Nat)) :=
  [{ From := 0, To := 1, Func := spyFail 10 }, { From := 1, To := 2, Func := spy 11 }]

/-- The steps `[{1→2, B}, {0→1, A}]`, with `A` logging 10 and `B` logging 11. -/
def stepsBA : List (Migration (List Nat)) :=
  [{ From := 1, To := 2, Func := spy 11 }, { From := 0, To := 1, Func := spy 10 }]

/-- The steps `[{0→1, A}, {0→1, B}]`, with `A` logging 10 and `B` logging 11. -/
def stepsDup : List (Migration (List Nat)) :=
  [{ From := 0, To := 1, Func := spy 10 }, { From := 0, To := 1, Func := spy 11 }]

/-- The steps `[{1→2, A}, {0→1, X}, {1→2, B}]`, logging 10, 12 and 11. -/
def stepsAXB : List (Migration (List Nat)) :=
  [{ From := 1, To := 2, Func := spy 10 }, { From := 0, To := 1, Func := spy 12 },
    { From := 1, To := 2, Func := spy 11 }]

/-- The steps `[{0→2, A}, {2→1, B}]`, with `A` logging 10 and `B` logging 11. -/
def stepsBack : List (Migration (List Nat)) :=
  [{ From := 0, To := 2, Func := spy 10 }, { From := 2, To := 1, Func := spy 11 }]

/-- The steps `[{0→1, A}, {1→1, B}]`, with `A` logging 10 and `B` logging 11. -/
def stepsSelf : List (Migration (List Nat)) :=
  [{ From := 0, To := 1, Func := spy 10 }, { From := 1, To := 1, Func := spy 11 }]

/-- The single step `[{0→-1, A}]`: Go's `int` allows a negative `To`. -/
def stepsNeg : List (Migration (List Nat)) :=
  [{ From := 0, To := -1, Func := spy 10 }]

/-- A driver on which the version query succeeds and the version statement always fails,
leaving the database as it is. -/
def failWriteDriver : Driver (List Nat) :=
  { query := fun _ => .row
    exec := fun d _ => some (.driver "write failed", d) }

/-- The single step `[{1→-1, A}]`, with `A` logging 10. -/
def stepsDown : List (Migration (List Nat)) :=
  [{ From := 1, To := -1, Func := spy 10 }]

/-- The cycle `[{0→1, A}, {1→0, B}]`, with `A` logging 10 and `B` logging 11. -/
def stepsCycle : List (Migration (List Nat)) :=
  [{ From := 0, To := 1, Func := spy 10 }, { From := 1, To := 0, Func := spy 11 }]

/-- The steps `[{0→1, A}, {1→3, B}, {2→3, C}]`, logging 10, 11 and 12: sorted by `From`,
every step forward; from version 0 the chain to 3 is `A`, `B`. -/
def stepsFork : List (Migration (List Nat)) :=
  [{ From := 0, To := 1, Func := spy 10 }, { From := 1, To := 3, Func := spy 11 },
    { From := 2, To := 3, Func := spy 12 }]

/-- The single step `[{0→2147483648, A}]`, with `A` logging 10: the `To` fits a 64-bit Go
`int` and lies just above the 32-bit range of `user_version`. -/
def stepsBig : List (Migration (List Nat)) :=
  [{ From := 0, To := 2147483648, Func := spy 10 }]

/-- The steps `[{0→2147483648, A}, {2147483648→2147483649, B(fails)}]`, logging 10 and 11. -/
def stepsBigFail : List (Migration (List Nat)) :=
  [{ From := 0, To := 2147483648, Func := spy 10 },
    { From := 2147483648, To := 2147483649, Func := spyFail 11 }]

/-- A driver whose version query fails once some step function has run, and whose version
statement always succeeds. -/
def flakyDriver : Driver (List Nat) :=
  { query := fun d => if d.rest = [] then .row else .queryErr (.driver "disk I/O error")
    exec := fun _ _ => none }

/-- A driver whose version query always fails and whose version statement always succeeds. -/
def noReadDriver : Driver (List Nat) :=
  { query := fun _ => .queryErr (.driver "disk I/O error")
    exec := fun _ _ => none }

/-! ## The version store and the loop, one iteration at a time -/

variable {σ : Type}

theorem getUserVersion_ok {env : Driver σ} {d : DB σ} {v : Int}
    (h : getUserVersion env d = .ok v) : v = d.user_version := by
  unfold getUserVersion at h
  split at h <;> simp_all

theorem setUserVersion_ok {env : Driver σ} {d d2 : DB σ} {v : Int}
    (h : setUserVersion env d v = (none, d2)) :
    d2 = { d with user_version := storedUserVersion v } := by
  unfold setUserVersion at h
  split at h <;> simp_all

theorem migrateLoop_nil (env : Driver σ) (i : Nat) (v : Int) (d : DB σ) :
    migrateLoop env i [] v d = ⟨.next v, d, []⟩ := rfl

theorem migrateLoop_skip (env : Driver σ) (i : Nat) (m : Migration σ)
    (ms : List (Migration σ)) (v : Int) (d : DB σ) (h : v ≠ m.From) :
    migrateLoop env i (m :: ms) v d = migrateLoop env (i + 1) ms v d := by
  simp [migrateLoop, h]

theorem migrateLoop_funcErr (env : Driver σ) (i : Nat) (m : Migration σ)
    (ms : List (Migration σ)) (v : Int) (d d1 : DB σ) (err : Error) (h : v = m.From)
    (hF : m.Func d = (some err, d1)) :
    migrateLoop env i (m :: ms) v d
      = ⟨.ret (.migrateStep m.From m.To err), d1, [.func i false]⟩ := by
  simp [migrateLoop, h, hF]

theorem migrateLoop_writeErr (env : Driver σ) (i : Nat) (m : Migration σ)
    (ms : List (Migration σ)) (v : Int) (d d1 d2 : DB σ) (err : Error) (h : v = m.From)
    (hF : m.Func d = (none, d1)) (hW : setUserVersion env d1 m.To = (some err, d2)) :
    migrateLoop env i (m :: ms) v d
      = ⟨.ret (.migrate err), d2, [.func i true, .setUserVersion m.To false]⟩ := by
  simp [migrateLoop, h, hF, hW]

theorem migrateLoop_applied (env : Driver σ) (i : Nat) (m : Migration σ)
    (ms : List (Migration σ)) (v : Int) (d d1 d2 : DB σ) (h : v = m.From)
    (hF : m.Func d = (none, d1)) (hW : setUserVersion env d1 m.To = (none, d2)) :
    migrateLoop env i (m :: ms) v d
      = ⟨(migrateLoop env (i + 1) ms m.To d2).flow, (migrateLoop env (i + 1) ms m.To d2).db,
          .func i true :: .setUserVersion m.To true
            :: (migrateLoop env (i + 1) ms m.To d2).trace⟩ := by
  simp [migrateLoop, h, hF, hW]

/-- When no remaining step starts at the working version, the loop does nothing. -/
theorem migrateLoop_no_match (env : Driver σ) (ms : List (Migration σ)) (i : Nat) (v : Int)
    (d : DB σ) (h : ∀ m ∈ ms, m.From ≠ v) :
    migrateLoop env i ms v d = ⟨.next v, d, []⟩ := by
  induction ms generalizing i with
  | nil => rfl
  | cons m ms ih =>
    rw [migrateLoop_skip env i m ms v d (fun e => h m (List.mem_cons_self _ _) e.symm)]
    exact ih (i + 1) (fun x hx => h x (List.mem_cons_of_mem _ hx))

/-- Inside the 32-bit range the store keeps the value written. -/
theorem storedUserVersion_of_range {v : Int} (hlo : -2147483648 ≤ v) (hhi : v ≤ 2147483647) :
    storedUserVersion v = v := by
  simp [storedUserVersion, hlo, hhi]

/-- Outside the 32-bit range the store keeps 0. -/
theorem storedUserVersion_out_of_range {v : Int}
    (h : ¬ (-2147483648 ≤ v ∧ v ≤ 2147483647)) : storedUserVersion v = 0 := by
  simp only [storedUserVersion, h, if_false]

/-- What the store keeps of a non-negative value is non-negative. -/
theorem storedUserVersion_nonneg {v : Int} (h : 0 ≤ v) : 0 ≤ storedUserVersion v := by
  unfold storedUserVersion
  split
  · exact h
  · exact le_refl 0

/-- If the loop runs off the end, either it did nothing or the database holds what the
store keeps of the working version. -/
theorem migrateLoop_next (env : Driver σ) (ms : List (Migration σ)) (i : Nat) (v v1 : Int)
    (d : DB σ) (h : (migrateLoop env i ms v d).flow = .next v1) :
    (v1 = v ∧ (migrateLoop env i ms v d).db = d ∧ (migrateLoop env i ms v d).trace = [])
      ∨ ((migrateLoop env i ms v d).db.user_version = storedUserVersion v1
          ∧ (migrateLoop env i ms v d).trace ≠ []) := by
  induction ms generalizing i v d with
  | nil => left; simp [migrateLoop_nil] at h ⊢; exact h.symm
  | cons m ms ih =>
    by_cases hv : v = m.From
    · rcases hF : m.Func d with ⟨_ | err, d1⟩
      · rcases hW : setUserVersion env d1 m.To with ⟨_ | err, d2⟩
        · rw [migrateLoop_applied env i m ms v d d1 d2 hv hF hW] at h ⊢
          simp only at h ⊢
          right
          refine ⟨?_, by simp⟩
          rcases ih (i + 1) m.To d2 h with ⟨h1, h2, -⟩ | h1
          · rw [h2, h1, setUserVersion_ok hW]
          · exact h1.1
        · rw [migrateLoop_writeErr env i m ms v d d1 d2 err hv hF hW] at h
          simp at h
      · rw [migrateLoop_funcErr env i m ms v d d1 err hv hF] at h
        simp at h
    · rw [migrateLoop_skip env i m ms v d hv] at h ⊢
      exact ih (i + 1) v d h

/-- The three ways a call of `Migrate` can go: the version read fails; the version read
equals `latest`; or the loop runs from index 0 with the version read. -/
theorem Migrate_cases (env : Driver σ) (s : MigrationSet σ) (d : DB σ) :
    (∃ err, getUserVersion env d = .error err ∧
        Migrate env s d = ⟨some (.migrate err), d, []⟩)
    ∨ (getUserVersion env d = .ok s.latest ∧ d.user_version = s.latest ∧
        Migrate env s d = ⟨none, d, []⟩)
    ∨ (getUserVersion env d = .ok d.user_version ∧ d.user_version ≠ s.latest ∧
        (Migrate env s d).db = (migrateLoop env 0 s.migrations d.user_version d).db ∧
        (Migrate env s d).trace = (migrateLoop env 0 s.migrations d.user_version d).trace ∧
        ((∃ err, (migrateLoop env 0 s.migrations d.user_version d).flow = .ret err ∧
            (Migrate env s d).err = some err)
          ∨ (∃ v1, (migrateLoop env 0 s.migrations d.user_version d).flow = .next v1 ∧
              v1 ≠ s.latest ∧ (Migrate env s d).err = some (.noMigrationPath s.latest v1))
          ∨ ((migrateLoop env 0 s.migrations d.user_version d).flow = .next s.latest ∧
              (Migrate env s d).err = none))) := by
  rcases hr : getUserVersion env d with err | v
  · left
    exact ⟨err, rfl, by simp [Migrate, hr]⟩
  · have hv := getUserVersion_ok hr
    subst hv
    by_cases hl : d.user_version = s.latest
    · right; left
      exact ⟨by rw [hl], hl, by simp [Migrate, hr, hl]⟩
    · right; right
      refine ⟨rfl, hl, ?_⟩
      rcases hf : (migrateLoop env 0 s.migrations d.user_version d).flow with v1 | err
      · by_cases h1 : v1 = s.latest
        · subst h1
          simp [Migrate, hr, hl, hf]
        · simp [Migrate, hr, hl, hf, h1]
      · simp [Migrate, hr, hl, hf]

/-- An error returned from inside the loop is never the no-migration-path error. -/
theorem migrateLoop_ret_ne_noPath (env : Driver σ) (ms : List (Migration σ)) (i : Nat)
    (v : Int) (d : DB σ) (a b : Int) :
    (migrateLoop env i ms v d).flow ≠ .ret (.noMigrationPath a b) := by
  induction ms generalizing i v d with
  | nil => simp [migrateLoop_nil]
  | cons m ms ih =>
    by_cases hv : v = m.From
    · rcases hF : m.Func d with ⟨_ | err, d1⟩
      · rcases hW : setUserVersion env d1 m.To with ⟨_ | err, d2⟩
        · rw [migrateLoop_applied env i m ms v d d1 d2 hv hF hW]
          exact ih (i + 1) m.To d2
        · rw [migrateLoop_writeErr env i m ms v d d1 d2 err hv hF hW]
          simp
      · rw [migrateLoop_funcErr env i m ms v d d1 err hv hF]
        simp
    · rw [migrateLoop_skip env i m ms v d hv]
      exact ih (i + 1) v d

/-! ## The latest version computed by `NewMigrationSet` -/

theorem foldl_max_ge (ms : List (Migration σ)) (a : Int) :
    a ≤ ms.foldl (fun latest m => max latest m.To) a := by
  induction ms generalizing a with
  | nil => simp
  | cons m ms ih => exact le_trans (le_max_left _ _) (ih (max a m.To))

theorem foldl_max_ge_To (ms : List (Migration σ)) (a : Int) :
    ∀ m ∈ ms, m.To ≤ ms.foldl (fun latest m => max latest m.To) a := by
  induction ms generalizing a with
  | nil => simp
  | cons m ms ih =>
    intro x hx
    rcases List.mem_cons.1 hx with rfl | hx
    · exact le_trans (le_max_right _ _) (foldl_max_ge ms _)
    · exact ih _ x hx

theorem foldl_max_attained (ms : List (Migration σ)) (a : Int) :
    ms.foldl (fun latest m => max latest m.To) a = a
      ∨ ∃ m ∈ ms, m.To = ms.foldl (fun latest m => max latest m.To) a := by
  induction ms generalizing a with
  | nil => simp
  | cons m ms ih =>
    rcases ih (max a m.To) with h | ⟨x, hx, h⟩
    · rcases max_cases a m.To with ⟨h1, -⟩ | ⟨h1, -⟩
      · left; simp only [List.foldl_cons]; rw [h, h1]
      · right; exact ⟨m, List.mem_cons_self _ _, by simp only [List.foldl_cons]; rw [h, h1]⟩
    · right; exact ⟨x, List.mem_cons_of_mem _ hx, by simpa using h⟩

/-! ## One pass: each remaining step is visited once -/

/-- The loop visits each remaining step once: the indices of the step functions it invokes
lie in the range of the remaining steps and increase strictly, and it makes at most one
version write per invoked step function. -/
theorem migrateLoop_bounded (env : Driver σ) (ms : List (Migration σ)) (i0 : Nat) (v : Int)
    (d : DB σ) :
    (∀ j ∈ calls (migrateLoop env i0 ms v d).trace, i0 ≤ j ∧ j < i0 + ms.length)
      ∧ (calls (migrateLoop env i0 ms v d).trace).Pairwise (· < ·)
      ∧ (calls (migrateLoop env i0 ms v d).trace).length ≤ ms.length
      ∧ (writes (migrateLoop env i0 ms v d).trace).length
          ≤ (calls (migrateLoop env i0 ms v d).trace).length := by
  induction ms generalizing i0 v d with
  | nil => simp [migrateLoop_nil, calls, writes]
  | cons m ms ih =>
    by_cases hv : v = m.From
    · rcases hF : m.Func d with ⟨_ | err, d1⟩
      · rcases hW : setUserVersion env d1 m.To with ⟨_ | err, d2⟩
        · rw [migrateLoop_applied env i0 m ms v d d1 d2 hv hF hW]
          obtain ⟨h1, h2, h3, h4⟩ := ih (i0 + 1) m.To d2
          simp only [calls, writes, List.mem_cons, List.length_cons, List.pairwise_cons]
          refine ⟨?_, ⟨fun j hj => by have := h1 j hj; omega, h2⟩, by omega, by omega⟩
          intro j hj
          rcases hj with rfl | hj
          · omega
          · have := h1 j hj; omega
        · rw [migrateLoop_writeErr env i0 m ms v d d1 d2 err hv hF hW]
          simp [calls, writes]
      · rw [migrateLoop_funcErr env i0 m ms v d d1 err hv hF]
        simp [calls, writes]
    · rw [migrateLoop_skip env i0 m ms v d hv]
      obtain ⟨h1, h2, h3, h4⟩ := ih (i0 + 1) v d
      refine ⟨fun j hj => ?_, h2, by simp only [List.length_cons]; omega, h4⟩
      have := h1 j hj
      simp only [List.length_cons]
      omega

/-! ## C1: what a nil return leaves in the database -/

/-- C1, evaluated on the code: if `Migrate` returns nil, the database holds `latest` or
what the store keeps of `latest`.  Inside the 32-bit range of `user_version` that is
`latest`, as the claim states; when `latest` lies outside it and a step was applied, the
database holds 0 and not `latest`. -/
theorem migrate_success_version (env : Driver σ) (s : MigrationSet σ) (d : DB σ)
    (h : (Migrate env s d).err = none) :
    ((Migrate env s d).db.user_version = s.latest
        ∨ (Migrate env s d).db.user_version = storedUserVersion s.latest)
      ∧ (-2147483648 ≤ s.latest → s.latest ≤ 2147483647 →
          (Migrate env s d).db.user_version = s.latest)
      ∧ (¬ (-2147483648 ≤ s.latest ∧ s.latest ≤ 2147483647) →
          (Migrate env s d).trace ≠ [] → (Migrate env s d).db.user_version = 0) := by
  rcases Migrate_cases env s d with ⟨err, -, hM⟩ | ⟨-, hl, hM⟩ | ⟨-, hl, hdb, htr, hE⟩
  · rw [hM] at h; simp at h
  · rw [hM]
    exact ⟨Or.inl hl, fun _ _ => hl, fun _ hne => absurd rfl hne⟩
  · rcases hE with ⟨err, -, he⟩ | ⟨v1, -, -, he⟩ | ⟨hf, -⟩
    · rw [he] at h; simp at h
    · rw [he] at h; simp at h
    · rw [hdb]
      rcases migrateLoop_next env _ 0 _ _ d hf with ⟨h2, -, -⟩ | ⟨h2, -⟩
      · exact absurd h2.symm hl
      · refine ⟨Or.inr h2, fun hlo hhi => ?_, fun hout _ => ?_⟩
        · rw [h2, storedUserVersion_of_range hlo hhi]
        · rw [h2, storedUserVersion_out_of_range hout]

/-- Witness for C1: on `[{0→2147483648, A}]` from version 0 `Migrate` returns nil, `latest`
is 2147483648 and the database holds 0. -/
theorem migrate_success_version_witness :
    (Migrate okDriver (NewMigrationSet stepsBig) (dbAt 0)).err = none
      ∧ (((Migrate okDriver (NewMigrationSet stepsBig) (dbAt 0)).db.user_version
            = (NewMigrationSet stepsBig).latest
          ∨ (Migrate okDriver (NewMigrationSet stepsBig) (dbAt 0)).db.user_version
            = storedUserVersion (NewMigrationSet stepsBig).latest)
        ∧ (-2147483648 ≤ (NewMigrationSet stepsBig).latest →
            (NewMigrationSet stepsBig).latest ≤ 2147483647 →
            (Migrate okDriver (NewMigrationSet stepsBig) (dbAt 0)).db.user_version
              = (NewMigrationSet stepsBig).latest)
        ∧ (¬ (-2147483648 ≤ (NewMigrationSet stepsBig).latest
              ∧ (NewMigrationSet stepsBig).latest ≤ 2147483647) →
            (Migrate okDriver (NewMigrationSet stepsBig) (dbAt 0)).trace ≠ [] →
            (Migrate okDriver (NewMigrationSet stepsBig) (dbAt 0)).db.user_version = 0))
      ∧ (NewMigrationSet stepsBig).latest = 2147483648
      ∧ (Migrate okDriver (NewMigrationSet stepsBig) (dbAt 0)).db = ⟨0, [10]⟩
      ∧ (Migrate okDriver (NewMigrationSet stepsBig) (dbAt 0)).trace
          = [.func 0 true, .setUserVersion 2147483648 true] :=
  ⟨by decide,
    migrate_success_version okDriver (NewMigrationSet stepsBig) (dbAt 0) (by decide),
    by decide, by decide, by decide⟩

/-! ## C2: linear chains -/

theorem foldl_To_last (ms : List (Migration σ)) (v : Int) (hne : ms ≠ []) :
    ms.foldl (fun _ m => m.To) v = (ms.getLast hne).To := by
  induction ms generalizing v with
  | nil => exact absurd rfl hne
  | cons m ms ih =>
    cases ms with
    | nil => simp
    | cons m1 ms => simpa using ih m.To (by simp)

/-- Along a linked chain of forward steps, every `To` is at most the last one, which is
above the starting version. -/
theorem chain_last_To (ms : List (Migration σ)) (v : Int)
    (hhead : ∀ m ∈ ms.head?, m.From = v)
    (hchain : List.Chain' (fun a b : Migration σ => b.From = a.To) ms)
    (hfwd : ∀ m ∈ ms, m.From < m.To) :
    v ≤ ms.foldl (fun _ m => m.To) v ∧ ∀ m ∈ ms, m.To ≤ ms.foldl (fun _ m => m.To) v := by
  induction ms generalizing v with
  | nil => simp
  | cons m ms ih =>
    have hm : m.From = v := hhead m (by simp)
    have hlt : v < m.To := hm ▸ hfwd m (List.mem_cons_self _ _)
    rw [List.chain'_cons'] at hchain
    have := ih m.To hchain.1 hchain.2 (fun x hx => hfwd x (List.mem_cons_of_mem _ hx))
    simp only [List.foldl_cons]
    refine ⟨le_trans hlt.le this.1, ?_⟩
    intro x hx
    rcases List.mem_cons.1 hx with rfl | hx
    · exact this.1
    · exact this.2 x hx

/-- On a linked chain starting at the working version, when every call succeeds the loop
applies every step, in order. -/
theorem migrateLoop_chain (env : Driver σ) (ms : List (Migration σ)) (i : Nat) (v : Int)
    (d : DB σ) (hhead : ∀ m ∈ ms.head?, m.From = v)
    (hchain : List.Chain' (fun a b : Migration σ => b.From = a.To) ms)
    (hok : ∀ e ∈ (migrateLoop env i ms v d).trace, e.ok = true) :
    (migrateLoop env i ms v d).flow = .next (ms.foldl (fun _ m => m.To) v)
      ∧ calls (migrateLoop env i ms v d).trace = List.range' i ms.length
      ∧ writes (migrateLoop env i ms v d).trace = ms.map (·.To) := by
  induction ms generalizing i v d with
  | nil => simp [migrateLoop_nil, calls, writes]
  | cons m ms ih =>
    have hv : v = m.From := (hhead m (by simp)).symm
    rw [List.chain'_cons'] at hchain
    rcases hF : m.Func d with ⟨_ | err, d1⟩
    · rcases hW : setUserVersion env d1 m.To with ⟨_ | err, d2⟩
      · rw [migrateLoop_applied env i m ms v d d1 d2 hv hF hW] at hok ⊢
        simp only at hok ⊢
        have := ih (i + 1) m.To d2 hchain.1 hchain.2
          (fun e he => hok e (List.mem_cons_of_mem _ (List.mem_cons_of_mem _ he)))
        simp [calls, writes, this, List.range'_succ]
      · rw [migrateLoop_writeErr env i m ms v d d1 d2 err hv hF hW] at hok
        have := hok (.setUserVersion m.To false) (by simp)
        simp [Event.ok] at this
    · rw [migrateLoop_funcErr env i m ms v d d1 err hv hF] at hok
      have := hok (.func i false) (by simp)
      simp [Event.ok] at this

/-- C2, evaluated on the code: on a non-empty list whose first step starts at the initial
version (which is non-negative), whose steps each start where the previous one ends and
each go to a higher version, when every call made in the run succeeds, `Migrate` returns
nil, invokes the step functions of indices 0, 1, ..., n-1 once each in that order and
passes their `To` values to `setUserVersion` in that order.  The database ends with what
the store keeps of the last `To`: that `To` inside the 32-bit range of `user_version`, as
the claim states, and 0 outside it. -/
theorem linear_chain (env : Driver σ) (ms : List (Migration σ)) (d : DB σ) (v : Int)
    (hne : ms ≠ [])
    (hread : getUserVersion env d = .ok v) (hv : 0 ≤ v)
    (hhead : (ms.head hne).From = v)
    (hchain : List.Chain' (fun a b : Migration σ => b.From = a.To) ms)
    (hfwd : ∀ m ∈ ms, m.From < m.To)
    (hok : ∀ e ∈ (Migrate env (NewMigrationSet ms) d).trace, e.ok = true) :
    (Migrate env (NewMigrationSet ms) d).err = none
      ∧ calls (Migrate env (NewMigrationSet ms) d).trace = List.range ms.length
      ∧ writes (Migrate env (NewMigrationSet ms) d).trace = ms.map (·.To)
      ∧ (Migrate env (NewMigrationSet ms) d).db.user_version
          = storedUserVersion (ms.getLast hne).To
      ∧ (-2147483648 ≤ (ms.getLast hne).To → (ms.getLast hne).To ≤ 2147483647 →
          (Migrate env (NewMigrationSet ms) d).db.user_version = (ms.getLast hne).To) := by
  have hvd := getUserVersion_ok hread
  subst hvd
  have hhead' : ∀ m ∈ ms.head?, m.From = d.user_version := by
    intro m hm
    rw [List.head?_eq_head hne] at hm
    simp at hm
    rw [← hm]; exact hhead
  have hlast : ms.foldl (fun _ m => m.To) d.user_version = (ms.getLast hne).To :=
    foldl_To_last ms d.user_version hne
  have hc := chain_last_To ms d.user_version hhead' hchain hfwd
  have hlt : d.user_version < (ms.getLast hne).To := by
    cases ms with
    | nil => exact absurd rfl hne
    | cons m ms =>
      have h1 : m.From = d.user_version := hhead' m (by simp)
      have h2 := hfwd m (List.mem_cons_self _ _)
      have h3 := hc.2 m (List.mem_cons_self _ _)
      rw [hlast] at h3
      omega
  have hlatest : (NewMigrationSet ms).latest = (ms.getLast hne).To := by
    apply le_antisymm
    · rcases foldl_max_attained ms 0 with h | ⟨x, hx, h⟩
      · show ms.foldl (fun latest m => max latest m.To) 0 ≤ _
        rw [h]; omega
      · show ms.foldl (fun latest m => max latest m.To) 0 ≤ _
        rw [← h, ← hlast]; exact hc.2 x hx
    · exact foldl_max_ge_To ms 0 _ (List.getLast_mem hne)
  rcases Migrate_cases env (NewMigrationSet ms) d with ⟨err, he, -⟩ | ⟨-, hl, -⟩ | ⟨-, -, hdb, htr, hE⟩
  · rw [hread] at he; simp at he
  · rw [hlatest] at hl; omega
  · have hmig : (NewMigrationSet ms).migrations = ms := rfl
    rw [hmig] at hdb htr hE
    rw [htr] at hok ⊢
    have hloop := migrateLoop_chain env ms 0 d.user_version d hhead' hchain hok
    rw [hlast] at hloop
    refine ⟨?_, by rw [hloop.2.1, List.range_eq_range'], hloop.2.2, ?_, ?_⟩
    · rcases hE with ⟨err, hf, -⟩ | ⟨v1, hf, hne1, -⟩ | ⟨-, he⟩
      · rw [hloop.1] at hf; simp at hf
      · rw [hloop.1] at hf; simp at hf; rw [hlatest] at hne1; exact absurd hf.symm hne1
      · exact he
    · rw [hdb]
      rcases migrateLoop_next env ms 0 _ _ d hloop.1 with ⟨h2, -, -⟩ | ⟨h2, -⟩
      · omega
      · exact h2
    · intro hlo hhi
      rw [hdb]
      rcases migrateLoop_next env ms 0 _ _ d hloop.1 with ⟨h2, -, -⟩ | ⟨h2, -⟩
      · omega
      · rw [h2, storedUserVersion_of_range hlo hhi]

/-- Witness for C2: on `[{0→2147483648, A}]` from version 0 every call succeeds, `Migrate`
returns nil and `A` runs once, but the database ends at 0 and not at the last `To`. -/
theorem linear_chain_witness :
    stepsBig ≠ []
      ∧ getUserVersion okDriver (dbAt 0) = .ok 0 ∧ (0 : Int) ≤ 0
      ∧ (stepsBig.head (by simp [stepsBig])).From = 0
      ∧ List.Chain' (fun a b : Migration (List Nat) => b.From = a.To) stepsBig
      ∧ (∀ m ∈ stepsBig, m.From < m.To)
      ∧ (∀ e ∈ (Migrate okDriver (NewMigrationSet stepsBig) (dbAt 0)).trace, e.ok = true)
      ∧ ((Migrate okDriver (NewMigrationSet stepsBig) (dbAt 0)).err = none
        ∧ calls (Migrate okDriver (NewMigrationSet stepsBig) (dbAt 0)).trace
            = List.range stepsBig.length
        ∧ writes (Migrate okDriver (NewMigrationSet stepsBig) (dbAt 0)).trace
            = stepsBig.map (·.To)
        ∧ (Migrate okDriver (NewMigrationSet stepsBig) (dbAt 0)).db.user_version
            = storedUserVersion (stepsBig.getLast (by simp [stepsBig])).To
        ∧ (-2147483648 ≤ (stepsBig.getLast (by simp [stepsBig])).To →
            (stepsBig.getLast (by simp [stepsBig])).To ≤ 2147483647 →
            (Migrate okDriver (NewMigrationSet stepsBig) (dbAt 0)).db.user_version
              = (stepsBig.getLast (by simp [stepsBig])).To))
      ∧ (stepsBig.getLast (by simp [stepsBig])).To = 2147483648
      ∧ (Migrate okDriver (NewMigrationSet stepsBig) (dbAt 0)).db.user_version = 0 :=
  ⟨by simp [stepsBig], rfl, by decide, by decide, by simp [stepsBig], by decide, by decide,
    linear_chain okDriver stepsBig (dbAt 0) 0 (by simp [stepsBig]) rfl (by decide)
      (by decide) (by simp [stepsBig]) (by decide) (by decide),
    by decide, by decide⟩

/-! ## C3: a failing step function -/

/-- In the loop with step functions that keep `user_version`: a failed step function call
is the last call, the loop returns the step error for that step, the step's `From` is the
last value passed to `setUserVersion` (or the working version the loop started with), and
the database holds what the store kept of that value (or what it held at the start). -/
theorem migrateLoop_func_failed (env : Driver σ) (ms : List (Migration σ)) (i0 : Nat)
    (v : Int) (d : DB σ) (i : Nat)
    (hkeep : ∀ m ∈ ms, ∀ x, (m.Func x).2.user_version = x.user_version)
    (hfail : Event.func i false ∈ (migrateLoop env i0 ms v d).trace) :
    ∃ m cause pre x, i0 ≤ i ∧ ms[i - i0]? = some m
      ∧ m.Func x = (some cause, (migrateLoop env i0 ms v d).db)
      ∧ (migrateLoop env i0 ms v d).flow = .ret (.migrateStep m.From m.To cause)
      ∧ (migrateLoop env i0 ms v d).trace = pre ++ [.func i false]
      ∧ (∀ e ∈ pre, e.ok = true)
      ∧ m.From = (writes (migrateLoop env i0 ms v d).trace).getLastD v
      ∧ (migrateLoop env i0 ms v d).db.user_version
          = ((writes (migrateLoop env i0 ms v d).trace).map storedUserVersion).getLastD
              d.user_version := by
  induction ms generalizing i0 v d with
  | nil => simp [migrateLoop_nil] at hfail
  | cons m ms ih =>
    have hkeep' : ∀ m ∈ ms, ∀ x, (m.Func x).2.user_version = x.user_version :=
      fun y hy => hkeep y (List.mem_cons_of_mem _ hy)
    by_cases hv : v = m.From
    · rcases hF : m.Func d with ⟨_ | err, d1⟩
      · rcases hW : setUserVersion env d1 m.To with ⟨_ | err, d2⟩
        · rw [migrateLoop_applied env i0 m ms v d d1 d2 hv hF hW] at hfail ⊢
          simp only [List.mem_cons, Event.func.injEq, Bool.false_eq_true, and_false,
            false_or, reduceCtorEq] at hfail
          have hd2 : d2.user_version = storedUserVersion m.To := by
            rw [setUserVersion_ok hW]
          obtain ⟨m1, cause, pre, x, hle, hget, hx, hflow, htr, hpre, hlast, hdb⟩ :=
            ih (i0 + 1) m.To d2 hkeep' hfail
          refine ⟨m1, cause, .func i0 true :: .setUserVersion m.To true :: pre, x,
            by omega, ?_, hx, hflow, by simp [htr], ?_, ?_, ?_⟩
          · have : i - i0 = (i - (i0 + 1)) + 1 := by omega
            rw [this, List.getElem?_cons_succ]; exact hget
          · intro e he
            simp only [List.mem_cons] at he
            rcases he with rfl | rfl | he
            · rfl
            · rfl
            · exact hpre e he
          · simp only [writes, List.getLastD_cons]; exact hlast
          · simp only [writes, List.map_cons, List.getLastD_cons]
            rw [hdb, hd2]
        · rw [migrateLoop_writeErr env i0 m ms v d d1 d2 err hv hF hW] at hfail
          simp at hfail
      · rw [migrateLoop_funcErr env i0 m ms v d d1 err hv hF] at hfail ⊢
        simp only [List.mem_singleton, Event.func.injEq, and_true] at hfail
        subst hfail
        have h1 : d1.user_version = d.user_version := by
          have := hkeep m (List.mem_cons_self _ _) d
          rw [hF] at this; exact this
        refine ⟨m, err, [], d, le_refl _, by simp, hF, rfl, rfl, by simp, ?_, ?_⟩
        · simp [writes, hv]
        · simp [writes, h1]
    · rw [migrateLoop_skip env i0 m ms v d hv] at hfail ⊢
      obtain ⟨m1, cause, pre, x, hle, hget, hx, hflow, htr, hpre, hlast, hdb⟩ :=
        ih (i0 + 1) v d hkeep' hfail
      refine ⟨m1, cause, pre, x, by omega, ?_, hx, hflow, htr, hpre, hlast, hdb⟩
      have : i - i0 = (i - (i0 + 1)) + 1 := by omega
      rw [this, List.getElem?_cons_succ]; exact hget

/-- C3, evaluated on the code: when the step functions keep `user_version`, a step function
that `Migrate` invokes and that returns an error ends the run: `Migrate` returns the step
error carrying that step's `From` and `To` and the cause, and the failed call is the last
call of the run (every call before it succeeded, no step function and no version write
follows).  The working version held just before that step, its `From`, is the last value
passed to `setUserVersion` or the initial version; the persisted version is what the store
kept of that value: the same inside the 32-bit range of `user_version`, as the claim
states, and 0 outside it. -/
theorem func_failure_aborts (env : Driver σ) (s : MigrationSet σ) (d : DB σ) (i : Nat)
    (hkeep : ∀ m ∈ s.migrations, ∀ x, (m.Func x).2.user_version = x.user_version)
    (hfail : Event.func i false ∈ (Migrate env s d).trace) :
    ∃ m cause pre x, s.migrations[i]? = some m
      ∧ m.Func x = (some cause, (Migrate env s d).db)
      ∧ (Migrate env s d).err = some (.migrateStep m.From m.To cause)
      ∧ (Migrate env s d).trace = pre ++ [.func i false]
      ∧ (∀ e ∈ pre, e.ok = true)
      ∧ m.From = (writes (Migrate env s d).trace).getLastD d.user_version
      ∧ (Migrate env s d).db.user_version
          = ((writes (Migrate env s d).trace).map storedUserVersion).getLastD d.user_version
      ∧ ((∀ w ∈ writes (Migrate env s d).trace, -2147483648 ≤ w ∧ w ≤ 2147483647) →
          (Migrate env s d).db.user_version = m.From) := by
  rcases Migrate_cases env s d with ⟨err, -, hM⟩ | ⟨-, -, hM⟩ | ⟨-, -, hdb, htr, hE⟩
  · rw [hM] at hfail; simp at hfail
  · rw [hM] at hfail; simp at hfail
  · rw [htr] at hfail
    obtain ⟨m, cause, pre, x, -, hget, hx, hflow, htr1, hpre, hlast, hdb1⟩ :=
      migrateLoop_func_failed env s.migrations 0 d.user_version d i hkeep hfail
    refine ⟨m, cause, pre, x, by simpa using hget, by rw [hdb]; exact hx, ?_,
      by rw [htr, htr1], hpre, by rw [htr, hlast], by rw [hdb, htr, hdb1], ?_⟩
    · rcases hE with ⟨err, hf, he⟩ | ⟨v1, hf, -, -⟩ | ⟨hf, -⟩
      · rw [hflow] at hf
        simp only [Flow.ret.injEq] at hf
        rw [he, hf]
      · rw [hflow] at hf; simp at hf
      · rw [hflow] at hf; simp at hf
    · intro hrange
      rw [htr] at hrange
      rw [hdb, hdb1, hlast]
      have hmap : (writes (migrateLoop env 0 s.migrations d.user_version d).trace).map
          storedUserVersion = writes (migrateLoop env 0 s.migrations d.user_version d).trace := by
        conv_rhs => rw [← List.map_id (writes _)]
        apply List.map_congr_left
        intro w hw
        exact storedUserVersion_of_range (hrange w hw).1 (hrange w hw).2
      rw [hmap]

/-- Witness for C3: on `[{0→2147483648, A}, {2147483648→2147483649, B(fails)}]` from
version 0, `A` is applied and its write returns nil, then `B` fails: the working version
before `B` is 2147483648, the `To` of the last step applied, and the database holds 0. -/
theorem func_failure_aborts_witness :
    (∀ m ∈ (NewMigrationSet stepsBigFail).migrations, ∀ x,
        (m.Func x).2.user_version = x.user_version)
      ∧ Event.func 1 false ∈ (Migrate okDriver (NewMigrationSet stepsBigFail) (dbAt 0)).trace
      ∧ (∃ m cause pre x, (NewMigrationSet stepsBigFail).migrations[1]? = some m
          ∧ m.Func x = (some cause, (Migrate okDriver (NewMigrationSet stepsBigFail) (dbAt 0)).db)
          ∧ (Migrate okDriver (NewMigrationSet stepsBigFail) (dbAt 0)).err
              = some (.migrateStep m.From m.To cause)
          ∧ (Migrate okDriver (NewMigrationSet stepsBigFail) (dbAt 0)).trace
              = pre ++ [.func 1 false]
          ∧ (∀ e ∈ pre, e.ok = true)
          ∧ m.From = (writes (Migrate okDriver (NewMigrationSet stepsBigFail) (dbAt 0)).trace).getLastD
                (dbAt 0).user_version
          ∧ (Migrate okDriver (NewMigrationSet stepsBigFail) (dbAt 0)).db.user_version
              = ((writes (Migrate okDriver (NewMigrationSet stepsBigFail) (dbAt 0)).trace).map
                  storedUserVersion).getLastD (dbAt 0).user_version
          ∧ ((∀ w ∈ writes (Migrate okDriver (NewMigrationSet stepsBigFail) (dbAt 0)).trace,
                -2147483648 ≤ w ∧ w ≤ 2147483647) →
              (Migrate okDriver (NewMigrationSet stepsBigFail) (dbAt 0)).db.user_version
                = m.From))
      ∧ (Migrate okDriver (NewMigrationSet stepsBigFail) (dbAt 0)).trace
          = [.func 0 true, .setUserVersion 2147483648 true, .func 1 false]
      ∧ (Migrate okDriver (NewMigrationSet stepsBigFail) (dbAt 0)).err
          = some (.migrateStep 2147483648 2147483649 (.driver "step failed"))
      ∧ (Migrate okDriver (NewMigrationSet stepsBigFail) (dbAt 0)).db = ⟨0, [10, 11]⟩ :=
  ⟨by simp [NewMigrationSet, stepsBigFail, spy, spyFail], by decide,
    func_failure_aborts okDriver (NewMigrationSet stepsBigFail) (dbAt 0) 1
      (by simp [NewMigrationSet, stepsBigFail, spy, spyFail]) (by decide),
    by decide, by decide, by decide⟩

/-! ## C4: idempotence -/

/-- C4, as the code has it: whenever the version read at the start equals `latest`,
`Migrate` returns nil, invokes no step function, makes no version write and leaves the
database as it is; and when `latest` lies within the 32-bit range of `user_version`, after
a call of `Migrate` that returned nil, a second call with the same set on the resulting
database does exactly that, provided its version read succeeds. -/
theorem migrate_idempotent (env : Driver σ) (s : MigrationSet σ) (d : DB σ) :
    (getUserVersion env d = .ok s.latest →
        (Migrate env s d).err = none ∧ (Migrate env s d).trace = []
          ∧ (Migrate env s d).db = d)
    ∧ ((Migrate env s d).err = none →
        -2147483648 ≤ s.latest → s.latest ≤ 2147483647 →
        ∀ w, getUserVersion env (Migrate env s d).db = .ok w →
          (Migrate env s (Migrate env s d).db).err = none
            ∧ (Migrate env s (Migrate env s d).db).trace = []
            ∧ (Migrate env s (Migrate env s d).db).db = (Migrate env s d).db) := by
  have first : ∀ d0 : DB σ, getUserVersion env d0 = .ok s.latest →
      (Migrate env s d0).err = none ∧ (Migrate env s d0).trace = []
        ∧ (Migrate env s d0).db = d0 := by
    intro d0 hread
    rcases Migrate_cases env s d0 with ⟨err, he, -⟩ | ⟨-, -, hM⟩ | ⟨-, hl, -⟩
    · rw [hread] at he; simp at he
    · rw [hM]; exact ⟨rfl, rfl, rfl⟩
    · exact absurd (getUserVersion_ok hread).symm hl
  refine ⟨first d, ?_⟩
  intro hnil hlo hhi w hread
  have hw := getUserVersion_ok hread
  have hlatest : (Migrate env s d).db.user_version = s.latest := by
    rcases Migrate_cases env s d with ⟨err, -, hM⟩ | ⟨-, hl, hM⟩ | ⟨-, hl, hdb, -, hE⟩
    · rw [hM] at hnil; simp at hnil
    · rw [hM]; exact hl
    · rcases hE with ⟨err, -, he⟩ | ⟨v1, -, -, he⟩ | ⟨hf, -⟩
      · rw [he] at hnil; simp at hnil
      · rw [he] at hnil; simp at hnil
      · rw [hdb]
        rcases migrateLoop_next env _ 0 _ _ d hf with ⟨h2, -, -⟩ | ⟨h2, -⟩
        · exact absurd h2.symm hl
        · rw [h2, storedUserVersion_of_range hlo hhi]
  exact first _ (by rw [hread, hw, hlatest])

/-- Witness for C4: `[{0→1, A}, {1→2, B}]` from version 0, run twice; and a database
already at version 2. -/
theorem migrate_idempotent_witness :
    (getUserVersion okDriver (dbAt 2) = .ok (NewMigrationSet stepsAB).latest
      ∧ (Migrate okDriver (NewMigrationSet stepsAB) (dbAt 2)).err = none
      ∧ (Migrate okDriver (NewMigrationSet stepsAB) (dbAt 2)).trace = []
      ∧ (Migrate okDriver (NewMigrationSet stepsAB) (dbAt 2)).db = dbAt 2)
    ∧ ((Migrate okDriver (NewMigrationSet stepsAB) (dbAt 0)).err = none
      ∧ -2147483648 ≤ (NewMigrationSet stepsAB).latest
      ∧ (NewMigrationSet stepsAB).latest ≤ 2147483647
      ∧ getUserVersion okDriver (Migrate okDriver (NewMigrationSet stepsAB) (dbAt 0)).db = .ok 2
      ∧ (Migrate okDriver (NewMigrationSet stepsAB)
            (Migrate okDriver (NewMigrationSet stepsAB) (dbAt 0)).db).err = none
      ∧ (Migrate okDriver (NewMigrationSet stepsAB)
            (Migrate okDriver (NewMigrationSet stepsAB) (dbAt 0)).db).trace = []
      ∧ (Migrate okDriver (NewMigrationSet stepsAB)
            (Migrate okDriver (NewMigrationSet stepsAB) (dbAt 0)).db).db
          = (Migrate okDriver (NewMigrationSet stepsAB) (dbAt 0)).db) :=
  ⟨⟨rfl, (migrate_idempotent okDriver (NewMigrationSet stepsAB) (dbAt 2)).1 rfl⟩,
    by decide, by decide, by decide, rfl,
    (migrate_idempotent okDriver (NewMigrationSet stepsAB) (dbAt 0)).2 (by decide)
      (by decide) (by decide) 2 rfl⟩

/-- Counterexample to C4 as stated.  On `[{0→1, s0}]` from version 0 with a driver whose
version query fails once a step function has run, the first call returns nil and the
second call returns the read error.  On `[{0→2147483648, A}]` from version 0 the first call
returns nil and the second call invokes `A` again and writes again. -/
theorem migrate_idempotent_counterexample :
    ((Migrate flakyDriver (NewMigrationSet stepsSimple) (dbAt 0)).err = none
      ∧ (Migrate flakyDriver (NewMigrationSet stepsSimple)
            (Migrate flakyDriver (NewMigrationSet stepsSimple) (dbAt 0)).db).err
          = some (.migrate (.getUserVersion (.driver "disk I/O error"))))
    ∧ ((Migrate okDriver (NewMigrationSet stepsBig) (dbAt 0)).err = none
      ∧ (Migrate okDriver (NewMigrationSet stepsBig)
            (Migrate okDriver (NewMigrationSet stepsBig) (dbAt 0)).db).trace
          = [.func 0 true, .setUserVersion 2147483648 true])
    ∧ ¬ ((Migrate flakyDriver (NewMigrationSet stepsSimple) (dbAt 0)).err = none →
          (Migrate flakyDriver (NewMigrationSet stepsSimple)
              (Migrate flakyDriver (NewMigrationSet stepsSimple) (dbAt 0)).db).err = none
            ∧ (Migrate flakyDriver (NewMigrationSet stepsSimple)
              (Migrate flakyDriver (NewMigrationSet stepsSimple) (dbAt 0)).db).trace = []) := by
  decide

/-! ## C5: the scan is a single forward pass -/

/-- A scan may start one position earlier when the step there does not match. -/
theorem ForwardScan_pred (all : List (Migration σ)) (lo : Nat) (v : Int) (js : List Nat)
    (hlo : ∀ m, all[lo]? = some m → m.From ≠ v) (h : ForwardScan all (lo + 1) v js) :
    ForwardScan all lo v js := by
  cases js with
  | nil => trivial
  | cons j js =>
    obtain ⟨m, hm, hle, hfrom, hfirst, hrest⟩ := h
    refine ⟨m, hm, by omega, hfrom, ?_, hrest⟩
    intro k m1 hk hkj hm1
    by_cases hkl : k = lo
    · subst hkl; exact hlo m1 hm1
    · exact hfirst k m1 (by omega) hkj hm1

/-- Indices selected by a forward scan lie at or after its position and increase strictly. -/
theorem ForwardScan_increasing (all : List (Migration σ)) (lo : Nat) (v : Int)
    (js : List Nat) (h : ForwardScan all lo v js) :
    (∀ j ∈ js, lo ≤ j) ∧ js.Pairwise (· < ·) := by
  induction js generalizing lo v with
  | nil => simp
  | cons j js ih =>
    obtain ⟨m, -, hle, -, -, hrest⟩ := h
    have := ih (j + 1) m.To hrest
    refine ⟨?_, List.pairwise_cons.2 ⟨fun k hk => this.1 k hk, this.2⟩⟩
    intro k hk
    rcases List.mem_cons.1 hk with rfl | hk
    · exact hle
    · have := this.1 k hk; omega

/-- The step functions the loop invokes are those a forward scan selects. -/
theorem migrateLoop_forward (env : Driver σ) (all ms : List (Migration σ)) (i0 : Nat)
    (v : Int) (d : DB σ) (hdrop : all.drop i0 = ms) :
    ForwardScan all i0 v (calls (migrateLoop env i0 ms v d).trace) := by
  induction ms generalizing i0 v d with
  | nil => simp [migrateLoop_nil, calls, ForwardScan]
  | cons m ms ih =>
    have hget : all[i0]? = some m := by
      have := List.getElem?_drop (L := all) (i := i0) (j := 0)
      rw [hdrop] at this
      simpa using this.symm
    have hdrop' : all.drop (i0 + 1) = ms := by
      rw [← List.tail_drop, hdrop]; rfl
    by_cases hv : v = m.From
    · rcases hF : m.Func d with ⟨_ | err, d1⟩
      · rcases hW : setUserVersion env d1 m.To with ⟨_ | err, d2⟩
        · rw [migrateLoop_applied env i0 m ms v d d1 d2 hv hF hW]
          exact ⟨m, hget, le_refl _, hv.symm, fun k m1 h1 h2 => by omega,
            ih (i0 + 1) m.To d2 hdrop'⟩
        · rw [migrateLoop_writeErr env i0 m ms v d d1 d2 err hv hF hW]
          exact ⟨m, hget, le_refl _, hv.symm, fun k m1 h1 h2 => by omega, trivial⟩
      · rw [migrateLoop_funcErr env i0 m ms v d d1 err hv hF]
        exact ⟨m, hget, le_refl _, hv.symm, fun k m1 h1 h2 => by omega, trivial⟩
    · rw [migrateLoop_skip env i0 m ms v d hv]
      refine ForwardScan_pred all i0 v _ ?_ (ih (i0 + 1) v d hdrop')
      intro m1 hm1
      rw [hget] at hm1
      simp only [Option.some.injEq] at hm1
      subst hm1
      exact fun h => hv h.symm

/-- An exhausted scan may start one position earlier when the step there does not match. -/
theorem ScanExhausted_pred (all : List (Migration σ)) (lo : Nat) (v : Int) (js : List Nat)
    (hlo : ∀ m, all[lo]? = some m → m.From ≠ v) (h : ScanExhausted all (lo + 1) v js) :
    ScanExhausted all lo v js := by
  cases js with
  | nil =>
    intro k m hk hm
    by_cases hkl : k = lo
    · subst hkl; exact hlo m hm
    · exact h k m (by omega) hm
  | cons j js => exact h

/-- When every call succeeds, the loop stops only when no remaining step matches: after
its last invoked step, no later step starts at the working version. -/
theorem migrateLoop_exhausted (env : Driver σ) (all ms : List (Migration σ)) (i0 : Nat)
    (v : Int) (d : DB σ) (hdrop : all.drop i0 = ms)
    (hok : ∀ e ∈ (migrateLoop env i0 ms v d).trace, e.ok = true) :
    ScanExhausted all i0 v (calls (migrateLoop env i0 ms v d).trace) := by
  induction ms generalizing i0 v d with
  | nil =>
    have hlen : all.length ≤ i0 := List.drop_eq_nil_iff.1 hdrop
    intro k m hk hm
    have : all[k]? = none := List.getElem?_eq_none (by omega)
    rw [this] at hm
    simp at hm
  | cons m ms ih =>
    have hget : all[i0]? = some m := by
      have := List.getElem?_drop (L := all) (i := i0) (j := 0)
      rw [hdrop] at this
      simpa using this.symm
    have hdrop' : all.drop (i0 + 1) = ms := by
      rw [← List.tail_drop, hdrop]; rfl
    by_cases hv : v = m.From
    · rcases hF : m.Func d with ⟨_ | err, d1⟩
      · rcases hW : setUserVersion env d1 m.To with ⟨_ | err, d2⟩
        · rw [migrateLoop_applied env i0 m ms v d d1 d2 hv hF hW] at hok ⊢
          intro m1 hm1
          rw [hget] at hm1
          simp only [Option.some.injEq] at hm1
          subst hm1
          exact ih (i0 + 1) m.To d2 hdrop'
            (fun e he => hok e (List.mem_cons_of_mem _ (List.mem_cons_of_mem _ he)))
        · rw [migrateLoop_writeErr env i0 m ms v d d1 d2 err hv hF hW] at hok
          have := hok (.setUserVersion m.To false) (by simp)
          simp [Event.ok] at this
      · rw [migrateLoop_funcErr env i0 m ms v d d1 err hv hF] at hok
        have := hok (.func i0 false) (by simp)
        simp [Event.ok] at this
    · rw [migrateLoop_skip env i0 m ms v d hv] at hok ⊢
      refine ScanExhausted_pred all i0 v _ ?_ (ih (i0 + 1) v d hdrop' hok)
      intro m1 hm1
      rw [hget] at hm1
      simp only [Option.some.injEq] at hm1
      subst hm1
      exact fun h => hv h.symm

/-- C5, as the code has it: `Migrate` makes a single forward pass over the stored
sequence.  The first step function invoked is that of the first step whose `From` equals
the initial version; after each applied step the scan goes on with the steps that follow
it, and the next step function invoked is that of the first later step whose `From` equals
the new working version.  The indices of the invoked steps increase strictly: a step that
sits earlier in the list than the step just applied is not applied.  The scan goes on to
the end of the sequence: when the version read differs from `latest` and every call of the
run succeeded, no step after the last one applied starts at the final working version. -/
theorem single_forward_pass (env : Driver σ) (s : MigrationSet σ) (d : DB σ) :
    ForwardScan s.migrations 0 d.user_version (calls (Migrate env s d).trace)
      ∧ (calls (Migrate env s d).trace).Pairwise (· < ·)
      ∧ (∀ v, getUserVersion env d = .ok v → v ≠ s.latest →
          (∀ e ∈ (Migrate env s d).trace, e.ok = true) →
          ScanExhausted s.migrations 0 v (calls (Migrate env s d).trace)) := by
  have h : ForwardScan s.migrations 0 d.user_version (calls (Migrate env s d).trace) := by
    rcases Migrate_cases env s d with ⟨err, -, hM⟩ | ⟨-, -, hM⟩ | ⟨-, -, -, htr, -⟩
    · rw [hM]; trivial
    · rw [hM]; trivial
    · rw [htr]; exact migrateLoop_forward env s.migrations s.migrations 0 _ d rfl
  refine ⟨h, (ForwardScan_increasing _ _ _ _ h).2, ?_⟩
  intro v hread hne hok
  have hv := getUserVersion_ok hread
  subst hv
  rcases Migrate_cases env s d with ⟨err, he, -⟩ | ⟨-, hl, -⟩ | ⟨-, -, -, htr, -⟩
  · rw [hread] at he; simp at he
  · exact absurd hl hne
  · rw [htr] at hok ⊢
    exact migrateLoop_exhausted env s.migrations s.migrations 0 _ d rfl hok

/-- Witness for C5: on `[{1→2, A}, {0→1, X}, {1→2, B}]` from version 0 the scan selects
`X` (index 1, the first step starting at 0) and then `B` (index 2, the first later step
starting at 1), and nothing after `B` starts at 2. -/
theorem single_forward_pass_witness :
    getUserVersion okDriver (dbAt 0) = .ok 0
      ∧ (0 : Int) ≠ (NewMigrationSet stepsAXB).latest
      ∧ (∀ e ∈ (Migrate okDriver (NewMigrationSet stepsAXB) (dbAt 0)).trace, e.ok = true)
      ∧ calls (Migrate okDriver (NewMigrationSet stepsAXB) (dbAt 0)).trace = [1, 2]
      ∧ ForwardScan (NewMigrationSet stepsAXB).migrations 0 (dbAt 0).user_version
          (calls (Migrate okDriver (NewMigrationSet stepsAXB) (dbAt 0)).trace)
      ∧ (calls (Migrate okDriver (NewMigrationSet stepsAXB) (dbAt 0)).trace).Pairwise (· < ·)
      ∧ ScanExhausted (NewMigrationSet stepsAXB).migrations 0 0
          (calls (Migrate okDriver (NewMigrationSet stepsAXB) (dbAt 0)).trace) :=
  ⟨rfl, by decide, by decide, by decide,
    (single_forward_pass okDriver (NewMigrationSet stepsAXB) (dbAt 0)).1,
    (single_forward_pass okDriver (NewMigrationSet stepsAXB) (dbAt 0)).2.1,
    (single_forward_pass okDriver (NewMigrationSet stepsAXB) (dbAt 0)).2.2 0 rfl
      (by decide) (by decide)⟩

/-- Counterexample to C5 as stated: on `[{1→2, B}, {0→1, A}]` from version 0 with every
call succeeding, `Migrate` does not apply `A` then `B` and end at version 2.  It applies
only `A` (index 1): `B` (index 0) starts at the new working version 1 but is not applied,
the version stays 1, and `Migrate` returns the no-migration-path error. -/
theorem scan_restart_counterexample :
    ¬ ((Migrate okDriver (NewMigrationSet stepsBA) (dbAt 0)).err = none
        ∧ calls (Migrate okDriver (NewMigrationSet stepsBA) (dbAt 0)).trace = [1, 0]
        ∧ (Migrate okDriver (NewMigrationSet stepsBA) (dbAt 0)).db.user_version = 2)
      ∧ (Migrate okDriver (NewMigrationSet stepsBA) (dbAt 0)).trace
          = [.func 1 true, .setUserVersion 1 true]
      ∧ (Migrate okDriver (NewMigrationSet stepsBA) (dbAt 0)).db = ⟨1, [10]⟩
      ∧ (Migrate okDriver (NewMigrationSet stepsBA) (dbAt 0)).err
          = some (.noMigrationPath 2 1) := by
  decide

/-! ## C6: steps sharing a `From` -/

/-- In a list sorted by `From` with no step from a version to itself, when no step before
the scan position can share the working version as `From` with a step at or after it,
every step function the loop invokes belongs to the earliest step with its `From`. -/
theorem migrateLoop_earliest (env : Driver σ) (all ms : List (Migration σ)) (i0 : Nat)
    (v : Int) (d : DB σ) (hdrop : all.drop i0 = ms)
    (hsorted : ∀ (j k : Nat) (a b : Migration σ), j < k → all[j]? = some a →
      all[k]? = some b → a.From ≤ b.From)
    (hloop : ∀ (k : Nat) (m : Migration σ), all[k]? = some m → m.To ≠ m.From)
    (hinv : ∀ (j k : Nat) (a b : Migration σ), j < i0 → i0 ≤ k → all[j]? = some a →
      all[k]? = some b → a.From = v → b.From ≠ v) :
    ∀ i ∈ calls (migrateLoop env i0 ms v d).trace, ∀ (j : Nat) (a b : Migration σ), j < i →
      all[j]? = some a → all[i]? = some b → a.From ≠ b.From := by
  induction ms generalizing i0 v d with
  | nil => simp [migrateLoop_nil, calls]
  | cons m ms ih =>
    have hget : all[i0]? = some m := by
      have := List.getElem?_drop (L := all) (i := i0) (j := 0)
      rw [hdrop] at this
      simpa using this.symm
    have hdrop' : all.drop (i0 + 1) = ms := by
      rw [← List.tail_drop, hdrop]; rfl
    by_cases hv : v = m.From
    · -- the step at `i0` is invoked; it is the earliest with its `From`
      have here : ∀ (j : Nat) (a b : Migration σ), j < i0 → all[j]? = some a → all[i0]? = some b →
          a.From ≠ b.From := by
        intro j a b hj ha hb hab
        rw [hget] at hb
        simp only [Option.some.injEq] at hb
        subst hb
        exact hinv j i0 a m hj (le_refl _) ha hget (by rw [hab, hv]) hv.symm
      have hinv' : ∀ (j k : Nat) (a b : Migration σ), j < i0 + 1 → i0 + 1 ≤ k → all[j]? = some a →
          all[k]? = some b → a.From = m.To → b.From ≠ m.To := by
        intro j k a b hj hk ha hb hab hbk
        have h1 : m.From ≤ b.From := hsorted i0 k m b (by omega) hget hb
        have h2 : a.From ≤ m.From := by
          by_cases hji : j = i0
          · subst hji; rw [hget] at ha; simp only [Option.some.injEq] at ha
            rw [ha]
          · exact hsorted j i0 a m (by omega) ha hget
        exact hloop i0 m hget (by omega)
      rcases hF : m.Func d with ⟨_ | err, d1⟩
      · rcases hW : setUserVersion env d1 m.To with ⟨_ | err, d2⟩
        · rw [migrateLoop_applied env i0 m ms v d d1 d2 hv hF hW]
          intro i hi
          simp only [calls, List.mem_cons] at hi
          rcases hi with rfl | hi
          · exact here
          · exact ih (i0 + 1) m.To d2 hdrop' hinv' i hi
        · rw [migrateLoop_writeErr env i0 m ms v d d1 d2 err hv hF hW]
          intro i hi
          simp only [calls, List.mem_singleton] at hi
          subst hi; exact here
      · rw [migrateLoop_funcErr env i0 m ms v d d1 err hv hF]
        intro i hi
        simp only [calls, List.mem_singleton] at hi
        subst hi; exact here
    · rw [migrateLoop_skip env i0 m ms v d hv]
      refine ih (i0 + 1) v d hdrop' ?_
      intro j k a b hj hk ha hb hab
      by_cases hji : j = i0
      · subst hji; rw [hget] at ha; simp only [Option.some.injEq] at ha
        subst ha; exact absurd hab.symm hv
      · exact hinv j k a b (by omega) (by omega) ha hb hab

/-- C6, as the code has it: for a list sorted by `From` in which no step goes from a
version to itself (in particular when every `To` exceeds its `From`), every step that
`Migrate` invokes is the earliest step of the sequence with its `From` value, and the
other steps with that `From` are never invoked. -/
theorem duplicate_from_earliest (env : Driver σ) (s : MigrationSet σ) (d : DB σ)
    (hsorted : s.migrations.Pairwise (fun a b => a.From ≤ b.From))
    (hloop : ∀ m ∈ s.migrations, m.To ≠ m.From) :
    (∀ i ∈ calls (Migrate env s d).trace, ∀ (j : Nat) (a b : Migration σ), j < i →
        s.migrations[j]? = some a → s.migrations[i]? = some b → a.From ≠ b.From)
      ∧ (∀ i ∈ calls (Migrate env s d).trace, ∀ j a b, j ≠ i →
          s.migrations[j]? = some a → s.migrations[i]? = some b → a.From = b.From →
          j ∉ calls (Migrate env s d).trace) := by
  have key : ∀ i ∈ calls (Migrate env s d).trace, ∀ (j : Nat) (a b : Migration σ), j < i →
      s.migrations[j]? = some a → s.migrations[i]? = some b → a.From ≠ b.From := by
    rcases Migrate_cases env s d with ⟨err, -, hM⟩ | ⟨-, -, hM⟩ | ⟨-, -, -, htr, -⟩
    · rw [hM]; simp [calls]
    · rw [hM]; simp [calls]
    · rw [htr]
      refine migrateLoop_earliest env s.migrations s.migrations 0 _ d rfl ?_ ?_ ?_
      · intro j k a b hjk ha hb
        obtain ⟨hj, rfl⟩ := List.getElem?_eq_some.1 ha
        obtain ⟨hk, rfl⟩ := List.getElem?_eq_some.1 hb
        exact List.pairwise_iff_getElem.1 hsorted j k hj hk hjk
      · intro k m hm
        exact hloop m (List.getElem?_mem hm)
      · intro j k a b hj
        omega
  refine ⟨key, ?_⟩
  intro i hi j a b hji ha hb hab hj
  rcases Nat.lt_or_gt_of_ne hji with h | h
  · exact key i hi j a b h ha hb hab
  · exact key j hj i b a h hb ha hab.symm

/-- Witness for C6: `[{0→1, A}, {0→1, B}]` from version 0 invokes only `A`. -/
theorem duplicate_from_earliest_witness :
    (NewMigrationSet stepsDup).migrations.Pairwise (fun a b => a.From ≤ b.From)
      ∧ (∀ m ∈ (NewMigrationSet stepsDup).migrations, m.To ≠ m.From)
      ∧ ((∀ i ∈ calls (Migrate okDriver (NewMigrationSet stepsDup) (dbAt 0)).trace,
            ∀ j a b, j < i → (NewMigrationSet stepsDup).migrations[j]? = some a →
              (NewMigrationSet stepsDup).migrations[i]? = some b → a.From ≠ b.From)
        ∧ (∀ i ∈ calls (Migrate okDriver (NewMigrationSet stepsDup) (dbAt 0)).trace,
            ∀ j a b, j ≠ i → (NewMigrationSet stepsDup).migrations[j]? = some a →
              (NewMigrationSet stepsDup).migrations[i]? = some b → a.From = b.From →
              j ∉ calls (Migrate okDriver (NewMigrationSet stepsDup) (dbAt 0)).trace))
      ∧ calls (Migrate okDriver (NewMigrationSet stepsDup) (dbAt 0)).trace = [0]
      ∧ (Migrate okDriver (NewMigrationSet stepsDup) (dbAt 0)).db = ⟨1, [10]⟩ :=
  ⟨by simp [NewMigrationSet, stepsDup], by decide,
    duplicate_from_earliest okDriver (NewMigrationSet stepsDup) (dbAt 0)
      (by simp [NewMigrationSet, stepsDup]) (by decide),
    by decide, by decide⟩

/-- Counterexample to C6 as stated: in `[{1→2, A}, {0→1, X}, {1→2, B}]` from version 0 the
steps of index 0 and 2 share `From = 1`; when the working version reaches 1 (after `X`),
the step applied is `B` (index 2), not the earliest one, `A` (index 0). -/
theorem duplicate_from_counterexample :
    ¬ (∀ i ∈ calls (Migrate okDriver (NewMigrationSet stepsAXB) (dbAt 0)).trace,
        ∀ j a b, j < i → (NewMigrationSet stepsAXB).migrations[j]? = some a →
          (NewMigrationSet stepsAXB).migrations[i]? = some b → a.From ≠ b.From)
      ∧ (Migrate okDriver (NewMigrationSet stepsAXB) (dbAt 0)).trace
          = [.func 1 true, .setUserVersion 1 true, .func 2 true, .setUserVersion 2 true]
      ∧ (Migrate okDriver (NewMigrationSet stepsAXB) (dbAt 0)).db = ⟨2, [12, 11]⟩
      ∧ (Migrate okDriver (NewMigrationSet stepsAXB) (dbAt 0)).err = none :=
  ⟨fun h => h 2 (by decide) 0 _ _ (by decide) rfl rfl rfl, by decide, by decide, by decide⟩

/-! ## C7: what happens once the working version is `latest` -/

/-- When every step goes to a higher version, no step starts at the latest version. -/
theorem forward_from_ne_latest (ms : List (Migration σ)) (hfwd : ∀ m ∈ ms, m.From < m.To) :
    ∀ m ∈ ms, m.From ≠ (NewMigrationSet ms).latest := by
  intro m hm h
  have h1 : m.To ≤ (NewMigrationSet ms).latest := foldl_max_ge_To ms 0 m hm
  have h2 := hfwd m hm
  omega

/-- In the loop over steps none of which starts at `L`: a successful write of `L` is the
last call, and the loop runs off the end with working version `L`. -/
theorem migrateLoop_stop (env : Driver σ) (ms : List (Migration σ)) (i0 : Nat) (v : Int)
    (d : DB σ) (L : Int) (hno : ∀ m ∈ ms, m.From ≠ L) (pre post : List Event)
    (htr : (migrateLoop env i0 ms v d).trace = pre ++ .setUserVersion L true :: post) :
    post = [] ∧ (migrateLoop env i0 ms v d).flow = .next L := by
  induction ms generalizing i0 v d pre with
  | nil => simp [migrateLoop_nil] at htr
  | cons m ms ih =>
    have hno' : ∀ m ∈ ms, m.From ≠ L := fun y hy => hno y (List.mem_cons_of_mem _ hy)
    by_cases hv : v = m.From
    · rcases hF : m.Func d with ⟨_ | err, d1⟩
      · rcases hW : setUserVersion env d1 m.To with ⟨_ | err, d2⟩
        · rw [migrateLoop_applied env i0 m ms v d d1 d2 hv hF hW] at htr ⊢
          simp only at htr ⊢
          rcases pre with _ | ⟨p, _ | ⟨q, pre⟩⟩
          · simp at htr
          · simp only [List.singleton_append, List.cons.injEq, Event.setUserVersion.injEq,
              and_true] at htr
            obtain ⟨-, hL, hpost⟩ := htr
            rw [hL] at hpost ⊢
            rw [migrateLoop_no_match env ms (i0 + 1) L d2 hno'] at hpost ⊢
            exact ⟨hpost.symm, rfl⟩
          · simp only [List.cons_append, List.cons.injEq] at htr
            exact ih (i0 + 1) m.To d2 hno' pre htr.2.2
        · rw [migrateLoop_writeErr env i0 m ms v d d1 d2 err hv hF hW] at htr
          rcases pre with _ | ⟨p, _ | ⟨q, pre⟩⟩ <;> simp at htr
      · rw [migrateLoop_funcErr env i0 m ms v d d1 err hv hF] at htr
        rcases pre with _ | ⟨p, pre⟩ <;> simp at htr
    · rw [migrateLoop_skip env i0 m ms v d hv] at htr ⊢
      exact ih (i0 + 1) v d hno' pre htr

/-- C7, as the code has it: when no step of the set starts at `latest` (which is so
whenever every step goes to a higher version), once a step has been applied and `latest`
has been persisted, nothing follows: no step function is invoked, no version write is
made, and `Migrate` returns nil. -/
theorem stop_at_latest (env : Driver σ) (s : MigrationSet σ) (d : DB σ)
    (hno : ∀ m ∈ s.migrations, m.From ≠ s.latest) (pre post : List Event)
    (htr : (Migrate env s d).trace = pre ++ .setUserVersion s.latest true :: post) :
    post = [] ∧ (Migrate env s d).err = none := by
  rcases Migrate_cases env s d with ⟨err, -, hM⟩ | ⟨-, -, hM⟩ | ⟨-, -, -, htr1, hE⟩
  · rw [hM] at htr; simp at htr
  · rw [hM] at htr; simp at htr
  · rw [htr1] at htr
    have h := migrateLoop_stop env s.migrations 0 _ d s.latest hno pre post htr
    refine ⟨h.1, ?_⟩
    rcases hE with ⟨err, hf, -⟩ | ⟨v1, hf, hne, -⟩ | ⟨-, he⟩
    · rw [h.2] at hf; simp at hf
    · rw [h.2] at hf; simp only [Flow.next.injEq] at hf; exact absurd hf.symm hne
    · exact he

/-- Witness for C7: `[{0→1, A}, {1→2, B}]` from version 0; the write of 2 is the last call. -/
theorem stop_at_latest_witness :
    (∀ m ∈ (NewMigrationSet stepsAB).migrations, m.From ≠ (NewMigrationSet stepsAB).latest)
      ∧ (Migrate okDriver (NewMigrationSet stepsAB) (dbAt 0)).trace
          = [.func 0 true, .setUserVersion 1 true, .func 1 true]
              ++ .setUserVersion (NewMigrationSet stepsAB).latest true :: []
      ∧ (([] : List Event) = []
        ∧ (Migrate okDriver (NewMigrationSet stepsAB) (dbAt 0)).err = none) :=
  ⟨by decide, by decide,
    stop_at_latest okDriver (NewMigrationSet stepsAB) (dbAt 0) (by decide)
      [.func 0 true, .setUserVersion 1 true, .func 1 true] [] (by decide)⟩

/-- Counterexample to C7 as stated: on `[{0→2, A}, {2→1, B}]` from version 0, `latest` is 2
and the working version equals 2 after `A` has been applied and persisted; the loop goes
on all the same: `B` is invoked, 1 is written, and `Migrate` returns the no-migration-path
error with the version left at 1.  On `[{0→1, A}, {1→1, B}]` from version 0, `latest` is 1
and `B` is invoked after 1 has been persisted. -/
theorem stop_at_latest_counterexample :
    (NewMigrationSet stepsBack).latest = 2
      ∧ (Migrate okDriver (NewMigrationSet stepsBack) (dbAt 0)).trace
          = [.func 0 true] ++ .setUserVersion 2 true
              :: [.func 1 true, .setUserVersion 1 true]
      ∧ (Migrate okDriver (NewMigrationSet stepsBack) (dbAt 0)).err
          = some (.noMigrationPath 2 1)
      ∧ (Migrate okDriver (NewMigrationSet stepsBack) (dbAt 0)).db = ⟨1, [10, 11]⟩
      ∧ ¬ (∀ pre post : List Event,
            (Migrate okDriver (NewMigrationSet stepsBack) (dbAt 0)).trace
              = pre ++ .setUserVersion (NewMigrationSet stepsBack).latest true :: post →
            post = [] ∧ (Migrate okDriver (NewMigrationSet stepsBack) (dbAt 0)).err = none)
      ∧ (NewMigrationSet stepsSelf).latest = 1
      ∧ (Migrate okDriver (NewMigrationSet stepsSelf) (dbAt 0)).trace
          = [.func 0 true] ++ .setUserVersion 1 true
              :: [.func 1 true, .setUserVersion 1 true] :=
  ⟨by decide, by decide, by decide, by decide,
    fun h => absurd (h [.func 0 true] [.func 1 true, .setUserVersion 1 true] (by decide)).1
      (by decide),
    by decide, by decide⟩

/-! ## C8: no step starts at the initial version -/

/-- C8: when the version read `v` differs from `latest` and no step has `From = v`,
`Migrate` returns the no-migration-path error (built from `latest` and `v`), invokes no
step function, makes no version write and leaves the database as it is. -/
theorem missing_path (env : Driver σ) (s : MigrationSet σ) (d : DB σ) (v : Int)
    (hread : getUserVersion env d = .ok v) (hne : v ≠ s.latest)
    (hno : ∀ m ∈ s.migrations, m.From ≠ v) :
    (Migrate env s d).err = some (.noMigrationPath s.latest v)
      ∧ (Migrate env s d).trace = []
      ∧ (Migrate env s d).db = d
      ∧ (Migrate env s d).db.user_version = v := by
  have hv := getUserVersion_ok hread
  subst hv
  have hloop := migrateLoop_no_match env s.migrations 0 d.user_version d hno
  rcases Migrate_cases env s d with ⟨err, he, -⟩ | ⟨-, hl, -⟩ | ⟨-, -, hdb, htr, hE⟩
  · rw [hread] at he; simp at he
  · exact absurd hl hne
  · rw [hloop] at hdb htr hE
    refine ⟨?_, htr, hdb, by rw [hdb]⟩
    rcases hE with ⟨err, hf, -⟩ | ⟨v1, hf, -, he⟩ | ⟨hf, -⟩
    · simp at hf
    · simp only [Flow.next.injEq] at hf
      rw [he, hf]
    · simp only [Flow.next.injEq] at hf
      exact absurd hf hne

/-- Witness for C8: `[{0→1, A}]` from version 5. -/
theorem missing_path_witness :
    getUserVersion okDriver (dbAt 5) = .ok 5
      ∧ (5 : Int) ≠ (NewMigrationSet stepsSimple).latest
      ∧ (∀ m ∈ (NewMigrationSet stepsSimple).migrations, m.From ≠ 5)
      ∧ ((Migrate okDriver (NewMigrationSet stepsSimple) (dbAt 5)).err
            = some (.noMigrationPath (NewMigrationSet stepsSimple).latest 5)
        ∧ (Migrate okDriver (NewMigrationSet stepsSimple) (dbAt 5)).trace = []
        ∧ (Migrate okDriver (NewMigrationSet stepsSimple) (dbAt 5)).db = dbAt 5
        ∧ (Migrate okDriver (NewMigrationSet stepsSimple) (dbAt 5)).db.user_version = 5) :=
  ⟨rfl, by decide, by decide,
    missing_path okDriver (NewMigrationSet stepsSimple) (dbAt 5) 5 rfl (by decide)
      (by decide)⟩

/-! ## C9: the latest version -/

/-- C9, as the code has it: `latest` is the maximum of 0 and of all the `To` values.  It is
0 for the empty list, it is never negative, no `To` exceeds it, it is 0 or the `To` of some
step, and it is the maximum `To` as soon as some `To` is non-negative. -/
theorem latest_is_max (ms : List (Migration σ)) :
    (NewMigrationSet ([] : List (Migration σ))).latest = 0
      ∧ 0 ≤ (NewMigrationSet ms).latest
      ∧ (∀ m ∈ ms, m.To ≤ (NewMigrationSet ms).latest)
      ∧ ((NewMigrationSet ms).latest = 0 ∨ ∃ m ∈ ms, m.To = (NewMigrationSet ms).latest)
      ∧ ((∃ m ∈ ms, 0 ≤ m.To) → ∃ m ∈ ms, m.To = (NewMigrationSet ms).latest) := by
  have hge : 0 ≤ (NewMigrationSet ms).latest := foldl_max_ge ms 0
  have hub : ∀ m ∈ ms, m.To ≤ (NewMigrationSet ms).latest := foldl_max_ge_To ms 0
  have hatt : (NewMigrationSet ms).latest = 0
      ∨ ∃ m ∈ ms, m.To = (NewMigrationSet ms).latest := foldl_max_attained ms 0
  refine ⟨rfl, hge, hub, hatt, ?_⟩
  rintro ⟨m, hm, h0⟩
  rcases hatt with h | h
  · exact ⟨m, hm, by have := hub m hm; omega⟩
  · exact h

/-- Witness for C9: the latest version of `[{0→1, A}, {1→2, B}]` is 2, the maximum `To`. -/
theorem latest_is_max_witness :
    (∃ m ∈ stepsAB, 0 ≤ m.To) ∧ (∃ m ∈ stepsAB, m.To = (NewMigrationSet stepsAB).latest)
      ∧ (NewMigrationSet stepsAB).latest = 2 :=
  ⟨by decide, (latest_is_max stepsAB).2.2.2.2 (by decide), by decide⟩

/-- Counterexample to C9 as stated: for `[{0→-1, A}]` the maximum `To` is -1 while
`latest` is 0, which is the `To` of no step. -/
theorem latest_is_max_counterexample :
    (NewMigrationSet stepsNeg).latest = 0
      ∧ ¬ ((∃ m ∈ stepsNeg, m.To = (NewMigrationSet stepsNeg).latest)
            ∧ ∀ m ∈ stepsNeg, m.To ≤ (NewMigrationSet stepsNeg).latest) := by
  decide

/-! ## C10: success needs a path -/

/-- When the loop runs off the end, the steps it applied form a chain, in list order, from
the working version it started with to the one it ends with. -/
theorem migrateLoop_path (env : Driver σ) (ms : List (Migration σ)) (i0 : Nat) (v v1 : Int)
    (d : DB σ) (h : (migrateLoop env i0 ms v d).flow = .next v1) :
    ∃ es : List (Migration σ), es.Sublist ms ∧ chainEnd v es = some v1 := by
  induction ms generalizing i0 v d with
  | nil =>
    simp only [migrateLoop_nil, Flow.next.injEq] at h
    exact ⟨[], List.Sublist.refl _, by rw [h]; rfl⟩
  | cons m ms ih =>
    by_cases hv : v = m.From
    · rcases hF : m.Func d with ⟨_ | err, d1⟩
      · rcases hW : setUserVersion env d1 m.To with ⟨_ | err, d2⟩
        · rw [migrateLoop_applied env i0 m ms v d d1 d2 hv hF hW] at h
          obtain ⟨es, hsub, hend⟩ := ih (i0 + 1) m.To d2 h
          exact ⟨m :: es, hsub.cons₂ m, by simp [chainEnd, hv, hend]⟩
        · rw [migrateLoop_writeErr env i0 m ms v d d1 d2 err hv hF hW] at h
          simp at h
      · rw [migrateLoop_funcErr env i0 m ms v d d1 err hv hF] at h
        simp at h
    · rw [migrateLoop_skip env i0 m ms v d hv] at h
      obtain ⟨es, hsub, hend⟩ := ih (i0 + 1) v d h
      exact ⟨es, hsub.cons m, hend⟩

/-- C10: if `Migrate` returns nil, some chain of supplied steps (a sublist of the stored
sequence, empty only when the initial version is `latest`) leads from the initial version
to `latest`, each step starting where the previous one ended; so when no chain of supplied
steps leads from the initial version to `latest`, `Migrate` returns an error. -/
theorem success_has_path (env : Driver σ) (s : MigrationSet σ) (d : DB σ) :
    ((Migrate env s d).err = none →
        ∃ es : List (Migration σ), es.Sublist s.migrations
          ∧ chainEnd d.user_version es = some s.latest
          ∧ (es = [] → d.user_version = s.latest))
      ∧ ((¬ ∃ es : List (Migration σ), (∀ e ∈ es, e ∈ s.migrations)
            ∧ chainEnd d.user_version es = some s.latest) →
          (Migrate env s d).err ≠ none) := by
  have main : (Migrate env s d).err = none →
      ∃ es : List (Migration σ), es.Sublist s.migrations
        ∧ chainEnd d.user_version es = some s.latest := by
    intro hnil
    rcases Migrate_cases env s d with ⟨err, -, hM⟩ | ⟨-, hl, -⟩ | ⟨-, -, -, -, hE⟩
    · rw [hM] at hnil; simp at hnil
    · exact ⟨[], List.nil_sublist _, by rw [hl]; rfl⟩
    · rcases hE with ⟨err, -, he⟩ | ⟨v1, -, -, he⟩ | ⟨hf, -⟩
      · rw [he] at hnil; simp at hnil
      · rw [he] at hnil; simp at hnil
      · exact migrateLoop_path env s.migrations 0 _ _ d hf
  constructor
  · intro hnil
    obtain ⟨es, hsub, hend⟩ := main hnil
    refine ⟨es, hsub, hend, ?_⟩
    intro hes
    rw [hes] at hend
    simpa [chainEnd] using hend
  · intro hno hnil
    obtain ⟨es, hsub, hend⟩ := main hnil
    exact hno ⟨es, fun e he => hsub.subset he, hend⟩

/-- Witness for C10: `[{0→1, A}, {1→2, B}]` from version 0 succeeds, and a chain exists. -/
theorem success_has_path_witness :
    (Migrate okDriver (NewMigrationSet stepsAB) (dbAt 0)).err = none
      ∧ ∃ es : List (Migration (List Nat)), es.Sublist (NewMigrationSet stepsAB).migrations
          ∧ chainEnd (dbAt 0).user_version es = some (NewMigrationSet stepsAB).latest
          ∧ (es = [] → (dbAt 0).user_version = (NewMigrationSet stepsAB).latest) :=
  ⟨by decide, (success_has_path okDriver (NewMigrationSet stepsAB) (dbAt 0)).1 (by decide)⟩

/-! ## C11: a failing version write -/

/-- In the loop, with step functions and failed writes that keep `user_version`: a failed
version write is the last call, it follows the successful step function of its step, the
loop returns the wrapped write error, and the database holds the version it held when that
step function was invoked, which is what the store kept of the last successful write (or
what the database held at the start). -/
theorem migrateLoop_write_failed (env : Driver σ) (ms : List (Migration σ)) (i0 : Nat)
    (v : Int) (d : DB σ) (w : Int)
    (hkeep : ∀ m ∈ ms, ∀ x, (m.Func x).2.user_version = x.user_version)
    (hwfail : ∀ (x x1 : DB σ) (u : Int) (err : Error),
      env.exec x u = some (err, x1) → x1.user_version = x.user_version)
    (hfail : Event.setUserVersion w false ∈ (migrateLoop env i0 ms v d).trace) :
    ∃ m cause pre i x0 x1, i0 ≤ i ∧ ms[i - i0]? = some m ∧ m.To = w
      ∧ m.Func x0 = (none, x1)
      ∧ env.exec x1 m.To = some (cause, (migrateLoop env i0 ms v d).db)
      ∧ (migrateLoop env i0 ms v d).flow = .ret (.migrate (.setUserVersion m.To cause))
      ∧ (migrateLoop env i0 ms v d).trace
          = pre ++ [.func i true, .setUserVersion m.To false]
      ∧ (∀ e ∈ pre, e.ok = true)
      ∧ (migrateLoop env i0 ms v d).db.user_version = x0.user_version
      ∧ x0.user_version = ((writes pre).map storedUserVersion).getLastD d.user_version := by
  induction ms generalizing i0 v d with
  | nil => simp [migrateLoop_nil] at hfail
  | cons m ms ih =>
    have hkeep' : ∀ m ∈ ms, ∀ x, (m.Func x).2.user_version = x.user_version :=
      fun y hy => hkeep y (List.mem_cons_of_mem _ hy)
    by_cases hv : v = m.From
    · rcases hF : m.Func d with ⟨_ | err, d1⟩
      · have h1 : d1.user_version = d.user_version := by
          have := hkeep m (List.mem_cons_self _ _) d
          rw [hF] at this; exact this
        rcases hW : setUserVersion env d1 m.To with ⟨_ | err, d2⟩
        · rw [migrateLoop_applied env i0 m ms v d d1 d2 hv hF hW] at hfail ⊢
          simp only [List.mem_cons, Event.setUserVersion.injEq, Bool.false_eq_true,
            and_false, false_or, reduceCtorEq] at hfail
          have hd2 : d2.user_version = storedUserVersion m.To := by
            rw [setUserVersion_ok hW]
          obtain ⟨m1, cause, pre, i, x0, x1, hle, hget, hTo, hx0, hx, hflow, htr, hpre,
              hdb, hlast⟩ := ih (i0 + 1) m.To d2 hkeep' hfail
          refine ⟨m1, cause, .func i0 true :: .setUserVersion m.To true :: pre, i, x0, x1,
            by omega, ?_, hTo, hx0, hx, hflow, by simp [htr], ?_, hdb, ?_⟩
          · have : i - i0 = (i - (i0 + 1)) + 1 := by omega
            rw [this, List.getElem?_cons_succ]; exact hget
          · intro e he
            simp only [List.mem_cons] at he
            rcases he with rfl | rfl | he
            · rfl
            · rfl
            · exact hpre e he
          · simp only [writes, List.map_cons, List.getLastD_cons]
            rw [hlast, hd2]
        · rw [migrateLoop_writeErr env i0 m ms v d d1 d2 err hv hF hW] at hfail ⊢
          simp only [List.mem_cons, Event.setUserVersion.injEq, and_true, reduceCtorEq,
            false_or, List.mem_singleton, List.not_mem_nil, or_false] at hfail
          unfold setUserVersion at hW
          rcases hE : env.exec d1 m.To with _ | ⟨cause, d3⟩
          · rw [hE] at hW; simp at hW
          · rw [hE] at hW
            simp only [Prod.mk.injEq, Option.some.injEq] at hW
            obtain ⟨herr, hd3⟩ := hW
            subst herr; subst hd3
            refine ⟨m, cause, [], i0, d, d1, le_refl _, by simp, hfail.symm, hF, hE, rfl,
              rfl, by simp, ?_, ?_⟩
            · show d3.user_version = d.user_version
              rw [hwfail d1 d3 m.To cause hE, h1]
            · simp [writes]
      · rw [migrateLoop_funcErr env i0 m ms v d d1 err hv hF] at hfail
        simp at hfail
    · rw [migrateLoop_skip env i0 m ms v d hv] at hfail ⊢
      obtain ⟨m1, cause, pre, i, x0, x1, hle, hget, hTo, hx0, hx, hflow, htr, hpre, hdb,
          hlast⟩ := ih (i0 + 1) v d hkeep' hfail
      refine ⟨m1, cause, pre, i, x0, x1, by omega, ?_, hTo, hx0, hx, hflow, htr, hpre, hdb,
        hlast⟩
      have : i - i0 = (i - (i0 + 1)) + 1 := by omega
      rw [this, List.getElem?_cons_succ]; exact hget

/-- C11: when the step functions and failed version writes keep `user_version`, a version
write that fails ends the run: it follows the successful step function of its step,
`Migrate` returns the error wrapping the write failure, the failed write is the last call
of the run (every call before that step succeeded; no step function and no write follows),
and the persisted version still holds the value it had before that step: the value the
database held when the step function was invoked, which is what the store kept of the
last successful write, or the initial version when there was none. -/
theorem write_failure_aborts (env : Driver σ) (s : MigrationSet σ) (d : DB σ) (w : Int)
    (hkeep : ∀ m ∈ s.migrations, ∀ x, (m.Func x).2.user_version = x.user_version)
    (hwfail : ∀ (x x1 : DB σ) (u : Int) (err : Error),
      env.exec x u = some (err, x1) → x1.user_version = x.user_version)
    (hfail : Event.setUserVersion w false ∈ (Migrate env s d).trace) :
    ∃ m cause pre i x0 x1, s.migrations[i]? = some m ∧ m.To = w
      ∧ m.Func x0 = (none, x1)
      ∧ env.exec x1 m.To = some (cause, (Migrate env s d).db)
      ∧ (Migrate env s d).err = some (.migrate (.setUserVersion m.To cause))
      ∧ (Migrate env s d).trace = pre ++ [.func i true, .setUserVersion m.To false]
      ∧ (∀ e ∈ pre, e.ok = true)
      ∧ (Migrate env s d).db.user_version = x0.user_version
      ∧ x0.user_version = ((writes pre).map storedUserVersion).getLastD d.user_version := by
  rcases Migrate_cases env s d with ⟨err, -, hM⟩ | ⟨-, -, hM⟩ | ⟨-, -, hdb, htr, hE⟩
  · rw [hM] at hfail; simp at hfail
  · rw [hM] at hfail; simp at hfail
  · rw [htr] at hfail
    obtain ⟨m, cause, pre, i, x0, x1, -, hget, hTo, hx0, hx, hflow, htr1, hpre, hdb1,
        hlast⟩ :=
      migrateLoop_write_failed env s.migrations 0 d.user_version d w hkeep hwfail hfail
    refine ⟨m, cause, pre, i, x0, x1, by simpa using hget, hTo, hx0, by rw [hdb]; exact hx,
      ?_, by rw [htr, htr1], hpre, by rw [hdb, hdb1], hlast⟩
    rcases hE with ⟨err, hf, he⟩ | ⟨v1, hf, -, -⟩ | ⟨hf, -⟩
    · rw [hflow] at hf
      simp only [Flow.ret.injEq] at hf
      rw [he, hf]
    · rw [hflow] at hf; simp at hf
    · rw [hflow] at hf; simp at hf

/-- Witness for C11: `[{0→1, A}, {1→2, B}]` from version 0 on a driver whose version
statement fails: `A` runs, the write of 1 fails, `B` never runs and the version stays 0. -/
theorem write_failure_aborts_witness :
    (∀ m ∈ (NewMigrationSet stepsAB).migrations, ∀ x,
        (m.Func x).2.user_version = x.user_version)
      ∧ (∀ (x x1 : DB (List Nat)) (u : Int) (err : Error),
          failWriteDriver.exec x u = some (err, x1) → x1.user_version = x.user_version)
      ∧ Event.setUserVersion 1 false
          ∈ (Migrate failWriteDriver (NewMigrationSet stepsAB) (dbAt 0)).trace
      ∧ (∃ m cause pre i x0 x1, (NewMigrationSet stepsAB).migrations[i]? = some m ∧ m.To = 1
          ∧ m.Func x0 = (none, x1)
          ∧ failWriteDriver.exec x1 m.To
              = some (cause, (Migrate failWriteDriver (NewMigrationSet stepsAB) (dbAt 0)).db)
          ∧ (Migrate failWriteDriver (NewMigrationSet stepsAB) (dbAt 0)).err
              = some (.migrate (.setUserVersion m.To cause))
          ∧ (Migrate failWriteDriver (NewMigrationSet stepsAB) (dbAt 0)).trace
              = pre ++ [.func i true, .setUserVersion m.To false]
          ∧ (∀ e ∈ pre, e.ok = true)
          ∧ (Migrate failWriteDriver (NewMigrationSet stepsAB) (dbAt 0)).db.user_version
              = x0.user_version
          ∧ x0.user_version
              = ((writes pre).map storedUserVersion).getLastD (dbAt 0).user_version)
      ∧ (Migrate failWriteDriver (NewMigrationSet stepsAB) (dbAt 0)).db = ⟨0, [10]⟩
      ∧ (Migrate failWriteDriver (NewMigrationSet stepsAB) (dbAt 0)).trace
          = [.func 0 true, .setUserVersion 1 false] :=
  ⟨by simp [NewMigrationSet, stepsAB, spy],
    by intro x x1 u err h; simp [failWriteDriver] at h; rw [h.2],
    by decide,
    write_failure_aborts failWriteDriver (NewMigrationSet stepsAB) (dbAt 0) 1
      (by simp [NewMigrationSet, stepsAB, spy])
      (by intro x x1 u err h; simp [failWriteDriver] at h; rw [h.2])
      (by decide),
    by decide, by decide⟩

/-! ## C12: the empty set -/

/-- C12: for the set built from the empty list, `Migrate` on a database whose version
reads 0 returns nil, and on a database whose version reads anything else it returns the
no-migration-path error; in both cases it invokes no step function, makes no version write
and leaves the database as it is. -/
theorem empty_set (env : Driver σ) (d : DB σ) (v : Int)
    (hread : getUserVersion env d = .ok v) :
    (v = 0 → (Migrate env (NewMigrationSet []) d).err = none)
      ∧ (v ≠ 0 → (Migrate env (NewMigrationSet []) d).err = some (.noMigrationPath 0 v))
      ∧ (Migrate env (NewMigrationSet []) d).trace = []
      ∧ (Migrate env (NewMigrationSet []) d).db = d := by
  have hv := getUserVersion_ok hread
  subst hv
  have hlatest : (NewMigrationSet ([] : List (Migration σ))).latest = 0 := rfl
  have hmig : (NewMigrationSet ([] : List (Migration σ))).migrations = [] := rfl
  rcases Migrate_cases env (NewMigrationSet []) d with
    ⟨err, he, -⟩ | ⟨-, hl, hM⟩ | ⟨-, hl, hdb, htr, hE⟩
  · rw [hread] at he; simp at he
  · rw [hlatest] at hl
    rw [hM]
    exact ⟨fun _ => rfl, fun h => absurd hl h, rfl, rfl⟩
  · rw [hlatest] at hl
    rw [hmig, migrateLoop_nil] at hdb htr hE
    refine ⟨fun h => absurd h hl, fun _ => ?_, htr, hdb⟩
    rcases hE with ⟨err, hf, -⟩ | ⟨v1, hf, -, he⟩ | ⟨hf, -⟩
    · simp at hf
    · simp only [Flow.next.injEq] at hf
      rw [he, hf, hlatest]
    · simp only [Flow.next.injEq] at hf
      rw [hlatest] at hf
      exact absurd hf hl

/-- Witness for C12: the empty set on a database at version 0 and on one at version 3. -/
theorem empty_set_witness :
    (getUserVersion okDriver (dbAt 0) = .ok 0
      ∧ (Migrate okDriver (NewMigrationSet []) (dbAt 0)).err = none
      ∧ (Migrate okDriver (NewMigrationSet []) (dbAt 0)).trace = []
      ∧ (Migrate okDriver (NewMigrationSet []) (dbAt 0)).db = dbAt 0)
    ∧ (getUserVersion okDriver (dbAt 3) = .ok 3
      ∧ (Migrate okDriver (NewMigrationSet []) (dbAt 3)).err = some (.noMigrationPath 0 3)
      ∧ (Migrate okDriver (NewMigrationSet []) (dbAt 3)).trace = []
      ∧ (Migrate okDriver (NewMigrationSet []) (dbAt 3)).db = dbAt 3) :=
  ⟨⟨rfl, (empty_set okDriver (dbAt 0) 0 rfl).1 rfl,
      (empty_set okDriver (dbAt 0) 0 rfl).2.2.1, (empty_set okDriver (dbAt 0) 0 rfl).2.2.2⟩,
    ⟨rfl, (empty_set okDriver (dbAt 3) 3 rfl).2.1 (by decide),
      (empty_set okDriver (dbAt 3) 3 rfl).2.2.1, (empty_set okDriver (dbAt 3) 3 rfl).2.2.2⟩⟩

/-! ## C13: sign of the persisted version -/

/-- The loop keeps a non-negative `user_version` non-negative when every `To` is
non-negative and neither the step functions nor failed writes make it negative. -/
theorem migrateLoop_nonneg (env : Driver σ) (ms : List (Migration σ)) (i0 : Nat) (v : Int)
    (d : DB σ) (hTo : ∀ m ∈ ms, 0 ≤ m.To)
    (hfunc : ∀ m ∈ ms, ∀ x, 0 ≤ x.user_version → 0 ≤ (m.Func x).2.user_version)
    (hwfail : ∀ (x x1 : DB σ) (u : Int) (err : Error),
      env.exec x u = some (err, x1) → 0 ≤ x.user_version → 0 ≤ x1.user_version)
    (hd : 0 ≤ d.user_version) :
    0 ≤ (migrateLoop env i0 ms v d).db.user_version := by
  induction ms generalizing i0 v d with
  | nil => exact hd
  | cons m ms ih =>
    have hTo' : ∀ m ∈ ms, 0 ≤ m.To := fun y hy => hTo y (List.mem_cons_of_mem _ hy)
    have hfunc' : ∀ m ∈ ms, ∀ x, 0 ≤ x.user_version → 0 ≤ (m.Func x).2.user_version :=
      fun y hy => hfunc y (List.mem_cons_of_mem _ hy)
    by_cases hv : v = m.From
    · have h1 := hfunc m (List.mem_cons_self _ _) d hd
      rcases hF : m.Func d with ⟨_ | err, d1⟩
      · rw [hF] at h1
        rcases hW : setUserVersion env d1 m.To with ⟨_ | err, d2⟩
        · rw [migrateLoop_applied env i0 m ms v d d1 d2 hv hF hW]
          refine ih (i0 + 1) m.To d2 hTo' hfunc' ?_
          rw [setUserVersion_ok hW]
          exact storedUserVersion_nonneg (hTo m (List.mem_cons_self _ _))
        · rw [migrateLoop_writeErr env i0 m ms v d d1 d2 err hv hF hW]
          unfold setUserVersion at hW
          rcases hE : env.exec d1 m.To with _ | ⟨cause, d3⟩
          · rw [hE] at hW; simp at hW
          · rw [hE] at hW
            simp only [Prod.mk.injEq, Option.some.injEq] at hW
            rw [← hW.2]
            exact hwfail d1 d3 m.To cause hE h1
      · rw [hF] at h1
        rw [migrateLoop_funcErr env i0 m ms v d d1 err hv hF]
        exact h1
    · rw [migrateLoop_skip env i0 m ms v d hv]
      exact ih (i0 + 1) v d hTo' hfunc' hd

/-- C13, as the code has it: when every `To` of the set is non-negative and neither the
step functions nor a failed version write turn a non-negative `user_version` into a
negative one (in particular when they leave it unchanged), a persisted version that is
non-negative before `Migrate` is called is non-negative when `Migrate` returns, whether
it returns nil or an error. -/
theorem nonneg_preserved (env : Driver σ) (s : MigrationSet σ) (d : DB σ)
    (hTo : ∀ m ∈ s.migrations, 0 ≤ m.To)
    (hfunc : ∀ m ∈ s.migrations, ∀ x, 0 ≤ x.user_version → 0 ≤ (m.Func x).2.user_version)
    (hwfail : ∀ (x x1 : DB σ) (u : Int) (err : Error),
      env.exec x u = some (err, x1) → 0 ≤ x.user_version → 0 ≤ x1.user_version)
    (hd : 0 ≤ d.user_version) :
    0 ≤ (Migrate env s d).db.user_version := by
  rcases Migrate_cases env s d with ⟨err, -, hM⟩ | ⟨-, -, hM⟩ | ⟨-, -, hdb, -, -⟩
  · rw [hM]; exact hd
  · rw [hM]; exact hd
  · rw [hdb]
    exact migrateLoop_nonneg env s.migrations 0 _ d hTo hfunc hwfail hd

/-- Witness for C13: `[{0→1, A}, {1→2, B}]` from version 0 on a driver whose version
statement fails returns an error and leaves the version at 0. -/
theorem nonneg_preserved_witness :
    (∀ m ∈ (NewMigrationSet stepsAB).migrations, 0 ≤ m.To)
      ∧ (∀ m ∈ (NewMigrationSet stepsAB).migrations, ∀ x,
          0 ≤ x.user_version → 0 ≤ (m.Func x).2.user_version)
      ∧ (∀ (x x1 : DB (List Nat)) (u : Int) (err : Error),
          failWriteDriver.exec x u = some (err, x1) →
            0 ≤ x.user_version → 0 ≤ x1.user_version)
      ∧ 0 ≤ (dbAt 0).user_version
      ∧ 0 ≤ (Migrate failWriteDriver (NewMigrationSet stepsAB) (dbAt 0)).db.user_version
      ∧ (Migrate failWriteDriver (NewMigrationSet stepsAB) (dbAt 0)).err ≠ none :=
  ⟨by decide,
    by simp [NewMigrationSet, stepsAB, spy],
    by intro x x1 u err h h0; simp [failWriteDriver] at h; rw [← h.2]; exact h0,
    by decide,
    nonneg_preserved failWriteDriver (NewMigrationSet stepsAB) (dbAt 0) (by decide)
      (by simp [NewMigrationSet, stepsAB, spy])
      (by intro x x1 u err h h0; simp [failWriteDriver] at h; rw [← h.2]; exact h0)
      (by decide),
    by decide⟩

/-- Counterexample to C13 as stated: on `[{1→-1, A}]` from version 1, `latest` is 0, the
step is applied and -1 is persisted: the version was non-negative before the call and is
negative after it (`Migrate` returns the no-migration-path error). -/
theorem nonneg_preserved_counterexample :
    0 ≤ (dbAt 1).user_version
      ∧ (Migrate okDriver (NewMigrationSet stepsDown) (dbAt 1)).db.user_version = -1
      ∧ (Migrate okDriver (NewMigrationSet stepsDown) (dbAt 1)).trace
          = [.func 0 true, .setUserVersion (-1) true]
      ∧ (Migrate okDriver (NewMigrationSet stepsDown) (dbAt 1)).err
          = some (.noMigrationPath 0 (-1))
      ∧ ¬ (0 ≤ (dbAt 1).user_version →
            0 ≤ (Migrate okDriver (NewMigrationSet stepsDown) (dbAt 1)).db.user_version) := by
  decide

/-! ## C14: the version store -/

/-- C14, as the code has it: a read of a fresh database that succeeds returns 0; and for
every integer `v` within the 32-bit range of `user_version`, after `setUserVersion(d, v)`
has returned nil, `getUserVersion(d)` either fails with its read error or returns `v`, and
it returns `v` whenever the driver answers the version query with a row. -/
theorem version_round_trip (env : Driver σ) :
    (∀ (rest : σ) (w : Int), getUserVersion env (freshDB rest) = .ok w → w = 0)
      ∧ (∀ (d d2 : DB σ) (v : Int), setUserVersion env d v = (none, d2) →
          -2147483648 ≤ v → v ≤ 2147483647 →
          (getUserVersion env d2 = .ok v
              ∨ ∃ err, getUserVersion env d2 = .error (.getUserVersion err))
            ∧ (∀ w, getUserVersion env d2 = .ok w → w = v)
            ∧ (env.query d2 = .row → getUserVersion env d2 = .ok v)) := by
  have hread : ∀ x : DB σ, getUserVersion env x = .ok x.user_version
      ∨ ∃ err, getUserVersion env x = .error (.getUserVersion err) := by
    intro x
    unfold getUserVersion
    rcases env.query x with err | err | err | err | _
    · exact Or.inr ⟨err, rfl⟩
    · exact Or.inr ⟨err, rfl⟩
    · exact Or.inr ⟨err, rfl⟩
    · exact Or.inr ⟨err, rfl⟩
    · exact Or.inl rfl
  constructor
  · intro rest w hw
    exact getUserVersion_ok hw
  · intro d d2 v hset hlo hhi
    have hd2 : d2.user_version = v := by
      rw [setUserVersion_ok hset]
      exact storedUserVersion_of_range hlo hhi
    refine ⟨?_, ?_, ?_⟩
    · rcases hread d2 with h | h
      · exact Or.inl (by rw [h, hd2])
      · exact Or.inr h
    · intro w hw
      rw [getUserVersion_ok hw, hd2]
    · intro hq
      unfold getUserVersion
      rw [hq, hd2]

/-- Witness for C14, after `TestUserVersion`: a fresh database reads 0; after setting 1 it
reads 1. -/
theorem version_round_trip_witness :
    (getUserVersion okDriver (freshDB []) = .ok 0 ∧ (0 : Int) = 0)
      ∧ (setUserVersion okDriver (freshDB []) 1 = (none, dbAt 1)
        ∧ (-2147483648 : Int) ≤ 1 ∧ (1 : Int) ≤ 2147483647
        ∧ okDriver.query (dbAt 1) = .row
        ∧ getUserVersion okDriver (dbAt 1) = .ok 1) :=
  ⟨⟨rfl, (version_round_trip okDriver).1 [] 0 rfl⟩,
    ⟨rfl, by decide, by decide, rfl,
      ((version_round_trip okDriver).2 (freshDB []) (dbAt 1) 1 rfl (by decide)
        (by decide)).2.2 rfl⟩⟩

/-- Counterexample to C14 as stated.  After `setUserVersion(d, 2147483648)` has returned
nil on a fresh database, `getUserVersion(d)` returns 0 and not 2147483648; and on a driver
whose version query fails, after `setUserVersion(d, 1)` has returned nil,
`getUserVersion(d)` returns an error. -/
theorem version_round_trip_counterexample :
    (setUserVersion okDriver (freshDB []) 2147483648 = (none, dbAt 0)
      ∧ getUserVersion okDriver (dbAt 0) = .ok 0
      ∧ getUserVersion okDriver (dbAt 0) ≠ .ok 2147483648)
    ∧ (setUserVersion noReadDriver (freshDB []) 1 = (none, dbAt 1)
      ∧ getUserVersion noReadDriver (dbAt 1)
          = .error (.getUserVersion (.driver "disk I/O error")))
    ∧ ¬ (∀ (v : Int) (d2 : DB (List Nat)),
          setUserVersion okDriver (freshDB []) v = (none, d2) →
          getUserVersion okDriver d2 = .ok v) :=
  ⟨⟨rfl, rfl, by intro h; cases h⟩, ⟨rfl, rfl⟩,
    fun h => by have := h 2147483648 (dbAt 0) rfl; cases this⟩

/-! ## C15: what the no-migration-path error says -/

/-- C15, evaluated on the code: when `Migrate` returns the no-migration-path error, the
scan ended with a working version `b` different from `latest`, and the message reads
"no migration path from `latest` to `b`": the first number is `latest` and the second is
the version the scan ended at, the reverse of what the claim states. -/
theorem no_path_error_args (env : Driver σ) (s : MigrationSet σ) (d : DB σ) (a b : Int)
    (h : (Migrate env s d).err = some (.noMigrationPath a b)) :
    a = s.latest ∧ b ≠ s.latest
      ∧ (migrateLoop env 0 s.migrations d.user_version d).flow = .next b
      ∧ (Error.noMigrationPath a b).msg
          = "migrate: no migration path from " ++ toString s.latest ++ " to " ++ toString b := by
  rcases Migrate_cases env s d with ⟨err, -, hM⟩ | ⟨-, -, hM⟩ | ⟨-, -, -, -, hE⟩
  · rw [hM] at h; simp at h
  · rw [hM] at h; simp at h
  · rcases hE with ⟨err, hf, he⟩ | ⟨v1, hf, hne, he⟩ | ⟨-, he⟩
    · -- an error returned inside the loop is a step error or a wrapped write error
      exfalso
      rw [he] at h
      simp only [Option.some.injEq] at h
      subst h
      exact migrateLoop_ret_ne_noPath env s.migrations 0 _ d a b hf
    · rw [he] at h
      simp only [Option.some.injEq, Error.noMigrationPath.injEq] at h
      obtain ⟨ha, hb⟩ := h
      subst ha; subst hb
      exact ⟨rfl, hne, hf, rfl⟩
    · rw [he] at h; simp at h

/-- Witness for C15: `[{0→1, A}]` on a database at version 5.  The database is left at 5
and `latest` is 1; the message says "from 1 to 5". -/
theorem no_path_error_args_witness :
    (Migrate okDriver (NewMigrationSet stepsSimple) (dbAt 5)).err
        = some (.noMigrationPath 1 5)
      ∧ ((1 : Int) = (NewMigrationSet stepsSimple).latest
        ∧ (5 : Int) ≠ (NewMigrationSet stepsSimple).latest
        ∧ (migrateLoop okDriver 0 (NewMigrationSet stepsSimple).migrations
              (dbAt 5).user_version (dbAt 5)).flow = .next 5
        ∧ (Error.noMigrationPath 1 5).msg
            = "migrate: no migration path from "
                ++ toString (NewMigrationSet stepsSimple).latest ++ " to "
                ++ toString (5 : Int))
      ∧ (Migrate okDriver (NewMigrationSet stepsSimple) (dbAt 5)).db.user_version = 5
      ∧ (Migrate okDriver (NewMigrationSet stepsSimple) (dbAt 5)).err.map Error.msg
          = some "migrate: no migration path from 1 to 5" :=
  ⟨by decide,
    no_path_error_args okDriver (NewMigrationSet stepsSimple) (dbAt 5) 1 5 (by decide),
    by decide, by decide⟩

/-! ## C16: completeness on sorted, forward lists -/

/-- A chain of forward steps only goes up: it ends at or above its start, strictly above
when it is not empty, and every step of it starts at or above the chain's start. -/
theorem chainEnd_ge (es : List (Migration σ)) (v L : Int)
    (hfwd : ∀ e ∈ es, e.From < e.To) (hend : chainEnd v es = some L) :
    v ≤ L ∧ (es ≠ [] → v < L) ∧ ∀ e ∈ es, v ≤ e.From := by
  induction es generalizing v with
  | nil =>
    simp only [chainEnd, Option.some.injEq] at hend
    simp [hend]
  | cons e es ih =>
    by_cases he : e.From = v
    · simp only [chainEnd, he, if_true] at hend
      have h1 := hfwd e (List.mem_cons_self _ _)
      obtain ⟨h2, -, h3⟩ := ih e.To (fun x hx => hfwd x (List.mem_cons_of_mem _ hx)) hend
      refine ⟨by omega, fun _ => by omega, ?_⟩
      intro x hx
      rcases List.mem_cons.1 hx with rfl | hx
      · omega
      · have := h3 x hx; omega
    · simp [chainEnd, he] at hend

/-- On a list strictly sorted by `From` with forward steps, when every call succeeds, the
loop follows any chain of remaining steps that leads from the working version to a version
`L` at which no remaining step starts: it runs off the end at `L`, having invoked exactly
the steps of the chain, in chain order. -/
theorem migrateLoop_complete (env : Driver σ) (all ms : List (Migration σ)) (i0 : Nat)
    (v : Int) (d : DB σ) (es : List (Migration σ)) (L : Int)
    (hdrop : all.drop i0 = ms)
    (hsorted : ms.Pairwise (fun a b => a.From < b.From))
    (hfwd : ∀ m ∈ ms, m.From < m.To)
    (hes : ∀ e ∈ es, e ∈ ms) (hend : chainEnd v es = some L)
    (hL : ∀ m ∈ ms, m.From ≠ L)
    (hok : ∀ e ∈ (migrateLoop env i0 ms v d).trace, e.ok = true) :
    (migrateLoop env i0 ms v d).flow = .next L
      ∧ (calls (migrateLoop env i0 ms v d).trace).map (fun i => all[i]?)
          = es.map some := by
  induction ms generalizing i0 v d es with
  | nil =>
    have hnil : es = [] := List.eq_nil_iff_forall_not_mem.2 (fun e he => by
      have := hes e he; simp at this)
    subst hnil
    simp only [chainEnd, Option.some.injEq] at hend
    simp [migrateLoop_nil, calls, hend]
  | cons m ms ih =>
    have hget : all[i0]? = some m := by
      have := List.getElem?_drop (L := all) (i := i0) (j := 0)
      rw [hdrop] at this
      simpa using this.symm
    have hdrop' : all.drop (i0 + 1) = ms := by
      rw [← List.tail_drop, hdrop]; rfl
    obtain ⟨hhead, hsorted'⟩ := List.pairwise_cons.1 hsorted
    have hfwd' : ∀ m ∈ ms, m.From < m.To := fun y hy => hfwd y (List.mem_cons_of_mem _ hy)
    have hL' : ∀ m ∈ ms, m.From ≠ L := fun y hy => hL y (List.mem_cons_of_mem _ hy)
    have hfes : ∀ e ∈ es, e.From < e.To := fun e he => hfwd e (hes e he)
    by_cases hv : v = m.From
    · -- the chain starts with `m`
      cases es with
      | nil =>
        simp only [chainEnd, Option.some.injEq] at hend
        exact absurd (hv.symm.trans hend) (hL m (List.mem_cons_self _ _))
      | cons e es =>
        have he : e.From = v := by
          by_contra hne
          simp [chainEnd, hne] at hend
        simp only [chainEnd, he, if_true] at hend
        have hem : e = m := by
          rcases List.mem_cons.1 (hes e (List.mem_cons_self _ _)) with h | h
          · exact h
          · have := hhead e h; omega
        subst hem
        have hrest := chainEnd_ge es e.To L
          (fun x hx => hfes x (List.mem_cons_of_mem _ hx)) hend
        have hes' : ∀ x ∈ es, x ∈ ms := by
          intro x hx
          rcases List.mem_cons.1 (hes x (List.mem_cons_of_mem _ hx)) with h | h
          · have h1 := hrest.2.2 x hx
            have h2 := hfwd e (List.mem_cons_self _ _)
            rw [h] at h1; omega
          · exact h
        rcases hF : e.Func d with ⟨_ | err, d1⟩
        · rcases hW : setUserVersion env d1 e.To with ⟨_ | err, d2⟩
          · rw [migrateLoop_applied env i0 e ms v d d1 d2 hv hF hW] at hok ⊢
            have := ih (i0 + 1) e.To d2 es hdrop' hsorted' hfwd' hes' hend hL'
              (fun x hx => hok x (List.mem_cons_of_mem _ (List.mem_cons_of_mem _ hx)))
            simp [calls, this.1, this.2, hget]
          · rw [migrateLoop_writeErr env i0 e ms v d d1 d2 err hv hF hW] at hok
            have := hok (.setUserVersion e.To false) (by simp)
            simp [Event.ok] at this
        · rw [migrateLoop_funcErr env i0 e ms v d d1 err hv hF] at hok
          have := hok (.func i0 false) (by simp)
          simp [Event.ok] at this
    · -- `m` is skipped, and the chain does not use it
      have hes' : ∀ x ∈ es, x ∈ ms := by
        intro x hx
        rcases List.mem_cons.1 (hes x hx) with h | h
        · exfalso
          have h1 := (chainEnd_ge es v L hfes hend).2.2 x hx
          cases es with
          | nil => simp at hx
          | cons e es =>
            have he : e.From = v := by
              by_contra hne
              simp [chainEnd, hne] at hend
            rcases List.mem_cons.1 (hes e (List.mem_cons_self _ _)) with h2 | h2
            · exact hv (by rw [← he, h2])
            · have := hhead e h2
              rw [h] at h1; omega
        · exact h
      rw [migrateLoop_skip env i0 m ms v d hv] at hok ⊢
      exact ih (i0 + 1) v d es hdrop' hsorted' hfwd' hes' hend hL' hok

/-- C16: for a list whose `From` values increase strictly along the list and whose steps
all go to a higher version, from the version read at the start, when every call made in
the run succeeds: `Migrate` returns nil if and only if some chain of supplied steps leads
from the initial version to `latest` (the empty chain when they are equal); and then the
step functions invoked are exactly the steps of that chain, in chain order, each index
once. -/
theorem complete_on_sorted (env : Driver σ) (ms : List (Migration σ)) (d : DB σ) (v : Int)
    (hsorted : ms.Pairwise (fun a b => a.From < b.From))
    (hfwd : ∀ m ∈ ms, m.From < m.To)
    (hread : getUserVersion env d = .ok v)
    (hok : ∀ e ∈ (Migrate env (NewMigrationSet ms) d).trace, e.ok = true) :
    ((Migrate env (NewMigrationSet ms) d).err = none ↔
        ∃ es : List (Migration σ), (∀ e ∈ es, e ∈ ms)
          ∧ chainEnd v es = some (NewMigrationSet ms).latest)
      ∧ (∀ es : List (Migration σ), (∀ e ∈ es, e ∈ ms) →
          chainEnd v es = some (NewMigrationSet ms).latest →
          (calls (Migrate env (NewMigrationSet ms) d).trace).map (fun i => ms[i]?)
              = es.map some
            ∧ (calls (Migrate env (NewMigrationSet ms) d).trace).Nodup) := by
  have hv := getUserVersion_ok hread
  subst hv
  have hmig : (NewMigrationSet ms).migrations = ms := rfl
  have hL : ∀ m ∈ ms, m.From ≠ (NewMigrationSet ms).latest := by
    intro m hm h
    have h1 : m.To ≤ (NewMigrationSet ms).latest := foldl_max_ge_To ms 0 m hm
    have h2 := hfwd m hm
    omega
  have key : ∀ es : List (Migration σ), (∀ e ∈ es, e ∈ ms) →
      chainEnd d.user_version es = some (NewMigrationSet ms).latest →
      (Migrate env (NewMigrationSet ms) d).err = none
        ∧ (calls (Migrate env (NewMigrationSet ms) d).trace).map (fun i => ms[i]?)
            = es.map some
        ∧ (calls (Migrate env (NewMigrationSet ms) d).trace).Nodup := by
    intro es hes hend
    rcases Migrate_cases env (NewMigrationSet ms) d with
      ⟨err, he, -⟩ | ⟨-, hl, hM⟩ | ⟨-, -, -, htr, hE⟩
    · rw [hread] at he; simp at he
    · have hnil : es = [] := by
        by_contra hne
        have := (chainEnd_ge es _ _ (fun e he => hfwd e (hes e he)) hend).2.1 hne
        omega
      subst hnil
      rw [hM]
      exact ⟨rfl, rfl, List.nodup_nil⟩
    · rw [hmig] at htr hE
      rw [htr] at hok ⊢
      have h := migrateLoop_complete env ms ms 0 d.user_version d es
        (NewMigrationSet ms).latest rfl hsorted hfwd hes hend hL hok
      refine ⟨?_, h.2, ?_⟩
      · rcases hE with ⟨err, hf, -⟩ | ⟨v1, hf, hne, -⟩ | ⟨-, he⟩
        · rw [h.1] at hf; simp at hf
        · rw [h.1] at hf
          simp only [Flow.next.injEq] at hf
          exact absurd hf.symm hne
        · exact he
      · exact (migrateLoop_bounded env ms 0 d.user_version d).2.1.imp
          (fun h => Nat.ne_of_lt h)
  refine ⟨⟨?_, ?_⟩, fun es hes hend => (key es hes hend).2⟩
  · intro hnil
    rcases Migrate_cases env (NewMigrationSet ms) d with
      ⟨err, -, hM⟩ | ⟨-, hl, -⟩ | ⟨-, -, -, -, hE⟩
    · rw [hM] at hnil; simp at hnil
    · exact ⟨[], by simp, by rw [hl]; rfl⟩
    · rcases hE with ⟨err, -, he⟩ | ⟨v1, -, -, he⟩ | ⟨hf, -⟩
      · rw [he] at hnil; simp at hnil
      · rw [he] at hnil; simp at hnil
      · obtain ⟨es, hsub, hend⟩ := migrateLoop_path env ms 0 _ _ d hf
        exact ⟨es, fun e he => hsub.subset he, hend⟩
  · rintro ⟨es, hes, hend⟩
    exact (key es hes hend).1

/-- Witness for C16: `[{0→1, A}, {1→3, B}, {2→3, C}]` from version 0: the chain `A`, `B`
leads to 3, `Migrate` returns nil and invokes `A` then `B`. -/
theorem complete_on_sorted_witness :
    stepsFork.Pairwise (fun a b => a.From < b.From)
      ∧ (∀ m ∈ stepsFork, m.From < m.To)
      ∧ getUserVersion okDriver (dbAt 0) = .ok 0
      ∧ (∀ e ∈ (Migrate okDriver (NewMigrationSet stepsFork) (dbAt 0)).trace, e.ok = true)
      ∧ (((Migrate okDriver (NewMigrationSet stepsFork) (dbAt 0)).err = none ↔
            ∃ es : List (Migration (List Nat)), (∀ e ∈ es, e ∈ stepsFork)
              ∧ chainEnd 0 es = some (NewMigrationSet stepsFork).latest)
        ∧ (∀ es : List (Migration (List Nat)), (∀ e ∈ es, e ∈ stepsFork) →
            chainEnd 0 es = some (NewMigrationSet stepsFork).latest →
            (calls (Migrate okDriver (NewMigrationSet stepsFork) (dbAt 0)).trace).map
                (fun i => stepsFork[i]?) = es.map some
              ∧ (calls (Migrate okDriver (NewMigrationSet stepsFork) (dbAt 0)).trace).Nodup))
      ∧ (Migrate okDriver (NewMigrationSet stepsFork) (dbAt 0)).err = none
      ∧ calls (Migrate okDriver (NewMigrationSet stepsFork) (dbAt 0)).trace = [0, 1]
      ∧ (Migrate okDriver (NewMigrationSet stepsFork) (dbAt 0)).db = ⟨3, [10, 11]⟩ :=
  ⟨by simp [stepsFork], by decide, rfl, by decide,
    complete_on_sorted okDriver stepsFork (dbAt 0) 0 (by simp [stepsFork]) (by decide) rfl
      (by decide),
    by decide, by decide, by decide⟩

/-! ## C17: bounded work -/

/-- C17: for every list of migrations, cycles and self-loops included, one call of
`Migrate` (a total function: the loop is one pass over the list) invokes the step function
of each index at most once, so it makes at most `len(migrations)` step function calls and
at most `len(migrations)` version writes. -/
theorem bounded_work (env : Driver σ) (s : MigrationSet σ) (d : DB σ) :
    (calls (Migrate env s d).trace).Nodup
      ∧ (∀ j ∈ calls (Migrate env s d).trace, j < s.migrations.length)
      ∧ (calls (Migrate env s d).trace).length ≤ s.migrations.length
      ∧ (writes (Migrate env s d).trace).length ≤ s.migrations.length := by
  rcases Migrate_cases env s d with ⟨err, -, hM⟩ | ⟨-, -, hM⟩ | ⟨-, -, -, htr, -⟩
  · rw [hM]; simp [calls, writes]
  · rw [hM]; simp [calls, writes]
  · rw [htr]
    obtain ⟨h1, h2, h3, h4⟩ := migrateLoop_bounded env s.migrations 0 d.user_version d
    refine ⟨h2.imp (fun h => Nat.ne_of_lt h), fun j hj => ?_, h3, le_trans h4 h3⟩
    have := h1 j hj
    omega

/-- The cycle `[{0→1, A}, {1→0, B}]` from version 0: each step function runs once, two
writes are made, and `Migrate` returns the no-migration-path error with the version at 0.
The self-loop `[{0→1, A}, {1→1, B}]` from version 0: each step function runs once. -/
theorem bounded_work_cycle :
    (Migrate okDriver (NewMigrationSet stepsCycle) (dbAt 0)).trace
        = [.func 0 true, .setUserVersion 1 true, .func 1 true, .setUserVersion 0 true]
      ∧ (Migrate okDriver (NewMigrationSet stepsCycle) (dbAt 0)).db = ⟨0, [10, 11]⟩
      ∧ (Migrate okDriver (NewMigrationSet stepsCycle) (dbAt 0)).err
          = some (.noMigrationPath 1 0)
      ∧ calls (Migrate okDriver (NewMigrationSet stepsSelf) (dbAt 0)).trace = [0, 1] := by
  decide

end SqliteMigrate
